import Mathlib

/-!
Verification of the warehouse-path-bench core against its specification.

The Python sources are shallowly embedded: grid positions are integer pairs,
floating point costs are rationals (the literal 1.4142 becomes 7071/5000),
`float('inf')` becomes the top element of `WithTop ℚ`, wall-clock time-budget
polls become an oracle `ℕ → Bool` giving the result of the k-th poll, and
pseudo-random draws become explicit oracle streams.
-/

/-- Python grid positions: tuples of two ints, compared lexicographically. -/
abbrev Pos : Type := ℤ × ℤ

/-- Python tuple comparison on positions (lexicographic). -/
def posLt (a b : Pos) : Bool :=
  decide (a.1 < b.1) || (decide (a.1 = b.1) && decide (a.2 < b.2))

/-! ## src/sim/grid.py -/

/-- Embeds the `Grid` dataclass of src/sim/grid.py: width, height, set of
blocked cells, diagonal-connectivity flag. -/
structure Grid where
  width : ℤ
  height : ℤ
  obstacles : Finset Pos
  diag : Bool

/-- `Grid.in_bounds`: `0 <= x < width and 0 <= y < height`. -/
def Grid.in_bounds (g : Grid) (p : Pos) : Bool :=
  decide (0 ≤ p.1) && decide (p.1 < g.width) && decide (0 ≤ p.2) && decide (p.2 < g.height)

/-- `Grid.passable`: the source checks only `p not in self.obstacles`. -/
def Grid.passable (g : Grid) (p : Pos) : Bool :=
  decide (p ∉ g.obstacles)

/-- The four axis-aligned unit steps of `Grid.neighbors`. -/
def steps4 : List Pos := [(1,0), (-1,0), (0,1), (0,-1)]

/-- The eight steps used when `diag` is set. -/
def steps8 : List Pos := steps4 ++ [(1,1), (1,-1), (-1,1), (-1,-1)]

/-- `Grid.neighbors`: offsets are applied in source order and a candidate is
yielded when it is in bounds and passable. -/
def Grid.neighbors (g : Grid) (p : Pos) : List Pos :=
  ((if g.diag then steps8 else steps4).map (fun d => (p.1 + d.1, p.2 + d.2))).filter
    (fun q => g.in_bounds q && g.passable q)

/-! ## src/algos/tsp_nn_2opt.py -/

/-- Distance functions handed to the tour solvers. -/
abbrev DFun : Type := ℕ → ℕ → ℚ

/-- `tour_length`: sum of consecutive pairwise distances along an open tour. -/
def tour_length (d : DFun) : List ℕ → ℚ
  | [] => 0
  | [_] => 0
  | a :: b :: rest => d a b + tour_length d (b :: rest)

/-- Element access `best[i]` (all source indices are in range; 0 is a dummy). -/
def gidx (l : List ℕ) (i : ℕ) : ℕ :=
  l.getD i 0

/-- The `(i, j)` pairs scanned by `two_opt`, in source order:
`i in range(1, len-2)` outer, `j in range(i+1, len-1)` inner. -/
def improvePairs (l : List ℕ) : List (ℕ × ℕ) :=
  (List.range' 1 (l.length - 3)).flatMap
    (fun i => (List.range' (i + 1) (l.length - 2 - i)).map (fun j => (i, j)))

/-- The improvement test of `two_opt`: `new_segment < old_segment` where the
old segment is `d(best[i-1], best[i]) + d(best[j], best[j+1])` and the new one
is `d(best[i-1], best[j]) + d(best[i], best[j+1])`. -/
def improves (d : DFun) (l : List ℕ) (p : ℕ × ℕ) : Bool :=
  decide (d (gidx l (p.1 - 1)) (gidx l p.2) + d (gidx l p.1) (gidx l (p.2 + 1)) <
    d (gidx l (p.1 - 1)) (gidx l p.1) + d (gidx l p.2) (gidx l (p.2 + 1)))

/-- First-improvement scan of `two_opt` (the nested loops with `break`). -/
def findImprove (d : DFun) (l : List ℕ) : Option (ℕ × ℕ) :=
  (improvePairs l).find? (improves d l)

/-- `best[i:j+1] = reversed(best[i:j+1])`. -/
def applyReverse (l : List ℕ) (i j : ℕ) : List ℕ :=
  l.take i ++ ((l.drop i).take (j + 1 - i)).reverse ++ l.drop (j + 1)

/-- The `while improved and swaps < max_swaps and time ok` loop of `two_opt`.
`fuel` is the remaining swap budget (`max_swaps - swaps`), `swaps` counts the
applied reversals and indexes the time-budget polls. -/
def twoOptAux (d : DFun) (tO : ℕ → Bool) : ℕ → ℕ → List ℕ → List ℕ
  | 0, _, best => best
  | fuel + 1, swaps, best =>
    if tO swaps then best
    else
      match findImprove d best with
      | none => best
      | some (i, j) => twoOptAux d tO fuel (swaps + 1) (applyReverse best i j)

/-- `two_opt(tour, dist, max_swaps, max_time)`; the time budget is the oracle
`tO` answering the k-th elapsed-time poll. -/
def two_opt (tour : List ℕ) (d : DFun) (maxSwaps : ℕ) (tO : ℕ → Bool) : List ℕ :=
  twoOptAux d tO maxSwaps 0 tour

/-- A distance function with an asymmetric interior edge (`d 1 2 = 0` but
`d 2 1 = 100`): reversing the segment `[1, 2]` improves the two boundary
edges yet inflates the interior. -/
def dC3 : DFun := fun i j =>
  if i = 0 ∧ j = 1 then 5
  else if i = 0 ∧ j = 2 then 1
  else if i = 1 ∧ j = 2 then 0
  else if i = 2 ∧ j = 1 then 100
  else if i = 1 ∧ j = 3 then 1
  else if i = 2 ∧ j = 3 then 5
  else 0

unseal Rat.add Rat.sub Rat.mul in
/-- C3: counterexample. On the asymmetric distance function `dC3` the tour
`[0,1,2,3]` has length 10, but `two_opt` returns `[0,2,1,3]` of length 102:
the output exceeds the input length by far more than the 1e-6 tolerance, so
the claim is false for general (asymmetric) distance functions. -/
theorem two_opt_increases_length_on_asymmetric_dist :
    two_opt [0, 1, 2, 3] dC3 1000 (fun _ => false) = [0, 2, 1, 3] ∧
    tour_length dC3 [0, 1, 2, 3] = 10 ∧
    tour_length dC3 [0, 2, 1, 3] = 102 ∧
    ¬ (tour_length dC3 (two_opt [0, 1, 2, 3] dC3 1000 (fun _ => false)) ≤
        tour_length dC3 [0, 1, 2, 3] + mkRat 1 1000000) := by
  refine ⟨by decide, by decide, by decide, by decide⟩

/-- C9: counterexample. On a 1×1 grid with no obstacles, the cell (5,5) is out
of bounds yet `passable` returns `True`: `passable` is not the conjunction of
in-bounds and not-an-obstacle that the claim states. -/
theorem passable_ignores_bounds :
    ¬ ((Grid.mk 1 1 ∅ false).passable (5, 5) = true ↔
        ((Grid.mk 1 1 ∅ false).in_bounds (5, 5) = true ∧ ((5 : ℤ), (5 : ℤ)) ∉ (∅ : Finset Pos))) := by
  decide

/-- C9 (amended): `passable p` is true iff `p` is not an obstacle (no bounds
check), and neighbor enumeration only ever yields cells that are both in
bounds and passable. -/
theorem passable_iff_not_obstacle (g : Grid) (p : Pos) :
    (g.passable p = true ↔ p ∉ g.obstacles) ∧
    (∀ q ∈ g.neighbors p, g.in_bounds q = true ∧ g.passable q = true) := by
  constructor
  · simp [Grid.passable]
  · intro q hq
    have := List.of_mem_filter hq
    simp only [Bool.and_eq_true] at this
    exact this

/-- C9 witness: the amended theorem applied on a concrete 2×2 grid, where
(0,1) is a neighbor of (0,0). -/
theorem passable_iff_not_obstacle_witness :
    ((0 : ℤ), (1 : ℤ)) ∈ (Grid.mk 2 2 ∅ false).neighbors (0, 0) ∧
    ((Grid.mk 2 2 ∅ false).in_bounds (0, 1) = true ∧
      (Grid.mk 2 2 ∅ false).passable (0, 1) = true) :=
  ⟨by decide, (passable_iff_not_obstacle (Grid.mk 2 2 ∅ false) (0, 0)).2 (0, 1) (by decide)⟩

/-! ### Structural lemmas for `two_opt` -/

theorem gidx_eq_getElem (l : List ℕ) (k : ℕ) (h : k < l.length) : gidx l k = l[k] := by
  simp [gidx, List.getD_eq_getElem?_getD, List.getElem?_eq_getElem h]

theorem tour_length_cons_cons (d : DFun) (x y : ℕ) (l : List ℕ) :
    tour_length d (x :: y :: l) = d x y + tour_length d (y :: l) :=
  rfl

theorem tour_length_cons_append (d : DFun) (a : ℕ) (xs ys : List ℕ) :
    tour_length d (xs ++ a :: ys) = tour_length d (xs ++ [a]) + tour_length d (a :: ys) := by
  induction xs with
  | nil => cases ys <;> simp [tour_length]
  | cons x xs ih =>
    cases xs with
    | nil => simp [tour_length]
    | cons y xs' =>
      rw [show (x :: y :: xs') ++ a :: ys = x :: ((y :: xs') ++ a :: ys) from rfl,
        show (x :: y :: xs') ++ [a] = x :: ((y :: xs') ++ [a]) from rfl,
        show x :: ((y :: xs') ++ a :: ys) = x :: y :: (xs' ++ a :: ys) from rfl,
        show x :: ((y :: xs') ++ [a]) = x :: y :: (xs' ++ [a]) from rfl,
        tour_length_cons_cons, tour_length_cons_cons,
        show y :: (xs' ++ a :: ys) = (y :: xs') ++ a :: ys from rfl,
        show y :: (xs' ++ [a]) = (y :: xs') ++ [a] from rfl, ih]
      ring

theorem tour_length_append_last (d : DFun) (xs : List ℕ) (hxs : xs ≠ []) (b : ℕ) :
    tour_length d (xs ++ [b]) = tour_length d xs + d (xs.getLast hxs) b := by
  induction xs with
  | nil => simp at hxs
  | cons x xs ih =>
    cases xs with
    | nil => simp [tour_length]
    | cons y xs' =>
      have hih := ih (by simp)
      have hg : (x :: y :: xs').getLast hxs = (y :: xs').getLast (by simp) :=
        List.getLast_cons (by simp)
      rw [show (x :: y :: xs') ++ [b] = x :: y :: (xs' ++ [b]) from rfl,
        tour_length_cons_cons, tour_length_cons_cons,
        show y :: (xs' ++ [b]) = (y :: xs') ++ [b] from rfl, hih, hg]
      ring

theorem tour_length_reverse_symm (d : DFun) (hsym : ∀ i j, d i j = d j i) (l : List ℕ) :
    tour_length d l.reverse = tour_length d l := by
  induction l with
  | nil => rfl
  | cons x l ih =>
    cases l with
    | nil => rfl
    | cons y l' =>
      rw [List.reverse_cons,
        tour_length_append_last d ((y :: l').reverse) (by simp) x, ih,
        List.getLast_reverse (by simp)]
      simp only [List.head_cons, tour_length]
      rw [hsym y x]
      ring

theorem tour_length_block (d : DFun) (A : List ℕ) (hA : A ≠ []) (N : List ℕ) (hN : N ≠ [])
    (B : List ℕ) (hB : B ≠ []) :
    tour_length d (A ++ N ++ B) =
      tour_length d A + d (A.getLast hA) (N.head hN) + tour_length d N
        + d (N.getLast hN) (B.head hB) + tour_length d B := by
  obtain ⟨p, N', rfl⟩ := List.exists_cons_of_ne_nil hN
  obtain ⟨v, B', rfl⟩ := List.exists_cons_of_ne_nil hB
  rw [List.append_assoc, show (p :: N') ++ v :: B' = p :: (N' ++ v :: B') from rfl,
    tour_length_cons_append d p A (N' ++ v :: B'),
    tour_length_append_last d A hA p,
    show p :: (N' ++ v :: B') = (p :: N') ++ v :: B' from rfl,
    tour_length_cons_append d v (p :: N') B',
    tour_length_append_last d (p :: N') (by simp) v]
  simp only [List.head_cons]
  ring

theorem tour_length_reversal (d : DFun) (hsym : ∀ i j, d i j = d j i)
    (A M B : List ℕ) (hA : A ≠ []) (hM : M ≠ []) (hB : B ≠ []) :
    tour_length d (A ++ M.reverse ++ B) + d (A.getLast hA) (M.head hM)
        + d (M.getLast hM) (B.head hB) =
      tour_length d (A ++ M ++ B) + d (A.getLast hA) (M.getLast hM)
        + d (M.head hM) (B.head hB) := by
  have hMr : M.reverse ≠ [] := by simpa using hM
  rw [tour_length_block d A hA M hM B hB, tour_length_block d A hA M.reverse hMr B hB,
    tour_length_reverse_symm d hsym M, List.head_reverse hMr, List.getLast_reverse hMr]
  ring

theorem findImprove_bounds {d : DFun} {l : List ℕ} {i j : ℕ}
    (h : findImprove d l = some (i, j)) : 1 ≤ i ∧ i < j ∧ j + 2 ≤ l.length := by
  have hmem := List.mem_of_find?_eq_some h
  simp only [improvePairs, List.mem_flatMap, List.mem_map, List.mem_range'_1] at hmem
  obtain ⟨a, ⟨ha1, ha2⟩, b, ⟨hb1, hb2⟩, heq⟩ := hmem
  simp only [Prod.mk.injEq] at heq
  obtain ⟨rfl, rfl⟩ := heq
  omega

theorem findImprove_improves {d : DFun} {l : List ℕ} {i j : ℕ}
    (h : findImprove d l = some (i, j)) :
    d (gidx l (i - 1)) (gidx l j) + d (gidx l i) (gidx l (j + 1)) <
      d (gidx l (i - 1)) (gidx l i) + d (gidx l j) (gidx l (j + 1)) := by
  have := List.find?_some h
  simpa [improves] using this

theorem applyReverse_decomp (l : List ℕ) (i j : ℕ)
    (h1 : 1 ≤ i) (h2 : i < j) (h3 : j + 2 ≤ l.length) :
    ∃ (A M B : List ℕ) (hA : A ≠ []) (hM : M ≠ []) (hB : B ≠ []),
      l = A ++ M ++ B ∧ applyReverse l i j = A ++ M.reverse ++ B ∧
      A.getLast hA = gidx l (i - 1) ∧ M.head hM = gidx l i ∧
      M.getLast hM = gidx l j ∧ B.head hB = gidx l (j + 1) := by
  refine ⟨l.take i, (l.drop i).take (j + 1 - i), l.drop (j + 1), ?_, ?_, ?_, ?_, rfl, ?_, ?_, ?_, ?_⟩
  · have : (l.take i).length = i := by
      rw [List.length_take]
      omega
    intro hnil
    rw [hnil] at this
    simp at this
    omega
  · have : ((l.drop i).take (j + 1 - i)).length = j + 1 - i := by
      rw [List.length_take, List.length_drop]
      omega
    intro hnil
    rw [hnil] at this
    simp at this
    omega
  · have : (l.drop (j + 1)).length = l.length - (j + 1) := List.length_drop _ _
    intro hnil
    rw [hnil] at this
    simp at this
    omega
  · rw [List.append_assoc]
    have hdrop : l.drop (j + 1) = ((l.drop i).drop (j + 1 - i)) := by
      rw [List.drop_drop]
      congr 1
      omega
    rw [hdrop, List.take_append_drop, List.take_append_drop]
  · have hlen : (l.take i).length = i := by
      rw [List.length_take]; omega
    have hne : l.take i ≠ [] := by
      intro hnil; rw [hnil] at hlen; simp at hlen; omega
    rw [List.getLast_eq_getElem (l.take i) hne]
    rw [gidx_eq_getElem l (i - 1) (by omega)]
    have hb1 : (l.take i).length - 1 < (l.take i).length := by rw [hlen]; omega
    have hb2 : (l.take i).length - 1 < l.length := by rw [hlen]; omega
    have : (l.take i)[(l.take i).length - 1] = l[(l.take i).length - 1] :=
      List.getElem_take _
    rw [this]
    congr 1
    omega
  · have hlen : ((l.drop i).take (j + 1 - i)).length = j + 1 - i := by
      rw [List.length_take, List.length_drop]; omega
    have hne : (l.drop i).take (j + 1 - i) ≠ [] := by
      intro hnil; rw [hnil] at hlen; simp at hlen; omega
    rw [List.head_eq_getElem_zero hne, gidx_eq_getElem l i (by omega)]
    have hb1 : 0 < ((l.drop i).take (j + 1 - i)).length := by rw [hlen]; omega
    have hb2 : 0 < (l.drop i).length := by rw [List.length_drop]; omega
    have hb3 : i + 0 < l.length := by omega
    have hg1 : ((l.drop i).take (j + 1 - i))[0] = (l.drop i)[0] := List.getElem_take _
    rw [hg1]
    have hg2 : (l.drop i)[0] = l[i + 0] := List.getElem_drop l
    rw [hg2]
    congr 1
  · have hlen : ((l.drop i).take (j + 1 - i)).length = j + 1 - i := by
      rw [List.length_take, List.length_drop]; omega
    have hne : (l.drop i).take (j + 1 - i) ≠ [] := by
      intro hnil; rw [hnil] at hlen; simp at hlen; omega
    rw [List.getLast_eq_getElem _ hne, gidx_eq_getElem l j (by omega)]
    have hb1 : ((l.drop i).take (j + 1 - i)).length - 1 <
        ((l.drop i).take (j + 1 - i)).length := by rw [hlen]; omega
    have hb2 : ((l.drop i).take (j + 1 - i)).length - 1 < (l.drop i).length := by
      rw [hlen, List.length_drop]; omega
    have hb3 : i + (((l.drop i).take (j + 1 - i)).length - 1) < l.length := by
      rw [hlen]; omega
    have hg1 : ((l.drop i).take (j + 1 - i))[((l.drop i).take (j + 1 - i)).length - 1] =
        (l.drop i)[((l.drop i).take (j + 1 - i)).length - 1] := List.getElem_take _
    rw [hg1]
    have hg2 : (l.drop i)[((l.drop i).take (j + 1 - i)).length - 1] =
        l[i + (((l.drop i).take (j + 1 - i)).length - 1)] := List.getElem_drop l
    rw [hg2]
    congr 1
    omega
  · have hne : l.drop (j + 1) ≠ [] := by
      intro hnil
      have := List.length_drop (j + 1) l
      rw [hnil] at this; simp at this; omega
    rw [List.head_drop hne, gidx_eq_getElem l (j + 1) (by omega)]

theorem applyReverse_tour_length_lt (d : DFun) (hsym : ∀ a b, d a b = d b a)
    {l : List ℕ} {i j : ℕ} (h : findImprove d l = some (i, j)) :
    tour_length d (applyReverse l i j) < tour_length d l := by
  obtain ⟨h1, h2, h3⟩ := findImprove_bounds h
  obtain ⟨A, M, B, hA, hM, hB, hl, happ, hu, hp, hq, hv⟩ := applyReverse_decomp l i j h1 h2 h3
  have himp := findImprove_improves h
  have hkey := tour_length_reversal d hsym A M B hA hM hB
  rw [hu, hp, hq, hv] at hkey
  rw [happ, show tour_length d l = tour_length d (A ++ M ++ B) from by rw [← hl]]
  linarith

theorem applyReverse_perm {l : List ℕ} {i j : ℕ}
    (h1 : 1 ≤ i) (h2 : i < j) (h3 : j + 2 ≤ l.length) :
    (applyReverse l i j).Perm l ∧ (applyReverse l i j).head? = l.head? ∧
      (applyReverse l i j).getLast? = l.getLast? := by
  obtain ⟨A, M, B, hA, hM, hB, hl, happ, -, -, -, -⟩ := applyReverse_decomp l i j h1 h2 h3
  rw [happ]
  refine ⟨?_, ?_, ?_⟩
  · rw [hl, List.append_assoc, List.append_assoc]
    exact ((M.reverse_perm).append_right B).append_left A
  · rw [hl, List.append_assoc, List.append_assoc,
      List.head?_append_of_ne_nil _ hA, List.head?_append_of_ne_nil _ hA]
  · rw [hl, List.getLast?_append_of_ne_nil _ hB, List.getLast?_append_of_ne_nil _ hB]

theorem twoOptAux_tour_length_le (d : DFun) (hsym : ∀ a b, d a b = d b a) (tO : ℕ → Bool) :
    ∀ (fuel swaps : ℕ) (best : List ℕ),
      tour_length d (twoOptAux d tO fuel swaps best) ≤ tour_length d best := by
  intro fuel
  induction fuel with
  | zero => intro swaps best; simp [twoOptAux]
  | succ n ih =>
    intro swaps best
    rw [twoOptAux]
    by_cases ht : tO swaps
    · simp [ht]
    · simp only [ht, if_false]
      cases hfi : findImprove d best with
      | none => simp
      | some p =>
        obtain ⟨i, j⟩ := p
        calc tour_length d (twoOptAux d tO n (swaps + 1) (applyReverse best i j)) ≤
              tour_length d (applyReverse best i j) := ih _ _
          _ ≤ tour_length d best := le_of_lt (applyReverse_tour_length_lt d hsym hfi)

theorem twoOptAux_elements (d : DFun) (tO : ℕ → Bool) :
    ∀ (fuel swaps : ℕ) (best : List ℕ),
      (twoOptAux d tO fuel swaps best).Perm best ∧
      (twoOptAux d tO fuel swaps best).head? = best.head? ∧
      (twoOptAux d tO fuel swaps best).getLast? = best.getLast? := by
  intro fuel
  induction fuel with
  | zero => intro swaps best; simp [twoOptAux]
  | succ n ih =>
    intro swaps best
    rw [twoOptAux]
    by_cases ht : tO swaps
    · simp [ht]
    · simp only [ht, if_false]
      cases hfi : findImprove d best with
      | none => simp
      | some p =>
        obtain ⟨i, j⟩ := p
        obtain ⟨hb1, hb2, hb3⟩ := findImprove_bounds hfi
        obtain ⟨p1, p2, p3⟩ := applyReverse_perm hb1 hb2 hb3
        obtain ⟨q1, q2, q3⟩ := ih (swaps + 1) (applyReverse best i j)
        exact ⟨q1.trans p1, q2.trans p2, q3.trans p3⟩

/-- C3 (amended): for a symmetric distance function, `two_opt` never increases
the tour length: every applied reversal strictly improves the two boundary
edges and, by symmetry, leaves the reversed interior length unchanged.  In
exact arithmetic the output length is at most the input length (so in
particular at most input + tolerance). -/
theorem two_opt_never_increases_symmetric (d : DFun) (hsym : ∀ a b, d a b = d b a)
    (tour : List ℕ) (maxSwaps : ℕ) (tO : ℕ → Bool) :
    tour_length d (two_opt tour d maxSwaps tO) ≤ tour_length d tour :=
  twoOptAux_tour_length_le d hsym tO maxSwaps 0 tour

unseal Rat.add in
/-- C3 witness: the amended theorem at the symmetric distance `d a b = a + b`
on the tour `[0, 3, 1, 2]`. -/
theorem two_opt_never_increases_symmetric_witness :
    tour_length (fun a b => ((a + b : ℕ) : ℚ)) (two_opt [0, 3, 1, 2]
        (fun a b => ((a + b : ℕ) : ℚ)) 1000 (fun _ => false)) ≤
      tour_length (fun a b => ((a + b : ℕ) : ℚ)) [0, 3, 1, 2] :=
  two_opt_never_increases_symmetric (fun a b => ((a + b : ℕ) : ℚ))
    (fun a b => by simp [Nat.add_comm]) [0, 3, 1, 2] 1000 (fun _ => false)

/-- C10: for every input tour of at least two elements, every distance
function, every swap budget and every time oracle, `two_opt` returns a
rearrangement of exactly the input elements (a permutation of the input list)
whose first and last entries are those of the input. -/
theorem two_opt_preserves_elements_and_endpoints (tour : List ℕ) (d : DFun)
    (maxSwaps : ℕ) (tO : ℕ → Bool) (h2 : 2 ≤ tour.length) :
    (two_opt tour d maxSwaps tO).Perm tour ∧
    (two_opt tour d maxSwaps tO).head? = tour.head? ∧
    (two_opt tour d maxSwaps tO).getLast? = tour.getLast? :=
  twoOptAux_elements d tO maxSwaps 0 tour

unseal Rat.add Rat.sub Rat.mul in
/-- C10 witness: the theorem applied to the 4-element tour of the C3
counterexample (where a reversal actually fires): the output `[0,2,1,3]` is a
permutation of `[0,1,2,3]` with the same first and last elements. -/
theorem two_opt_preserves_elements_and_endpoints_witness :
    (2 ≤ ([0, 1, 2, 3] : List ℕ).length) ∧
    ((two_opt [0, 1, 2, 3] dC3 1000 (fun _ => false)).Perm [0, 1, 2, 3] ∧
      (two_opt [0, 1, 2, 3] dC3 1000 (fun _ => false)).head? = ([0, 1, 2, 3] : List ℕ).head? ∧
      (two_opt [0, 1, 2, 3] dC3 1000 (fun _ => false)).getLast? = ([0, 1, 2, 3] : List ℕ).getLast?) :=
  ⟨by decide,
    two_opt_preserves_elements_and_endpoints [0, 1, 2, 3] dC3 1000 (fun _ => false) (by decide)⟩

/-! ## src/sim/collision_tracker.py -/

/-- Embeds the `CollisionStats` dataclass. `bot_wait_times` is the
`defaultdict(float)` viewed as a total function. -/
structure CollisionStats where
  total_collisions : ℕ
  total_wait_time : ℚ
  max_wait_time : ℚ
  wait_events : List ℚ
  collision_locations : List Pos
  bot_wait_times : ℕ → ℚ
  makespan : ℚ

/-- The empty statistics record created at simulation start. -/
def CollisionStats.init : CollisionStats :=
  ⟨0, 0, 0, [], [], fun _ => 0, 0⟩

/-- One wait event observed by `follow_path_with_tracking`: the bot, the cell
it was waiting for, and `wait_duration = env.now - wait_start`. -/
structure WaitEvent where
  bot : ℕ
  pos : Pos
  dur : ℚ

/-- The `if wait_duration > 0:` update block of `follow_path_with_tracking`,
executed once per cell acquisition. -/
def recordWait (stats : CollisionStats) (e : WaitEvent) : CollisionStats :=
  if 0 < e.dur then
    { stats with
      total_collisions := stats.total_collisions + 1
      total_wait_time := stats.total_wait_time + e.dur
      wait_events := stats.wait_events ++ [e.dur]
      bot_wait_times := fun b =>
        if b = e.bot then stats.bot_wait_times b + e.dur else stats.bot_wait_times b
      collision_locations := stats.collision_locations ++ [e.pos]
      max_wait_time :=
        if stats.max_wait_time < e.dur then e.dur else stats.max_wait_time }
  else stats

/-- `simulate_multi_bot_execution`, abstracted over the SimPy schedule: the
discrete-event run is represented by the sequence of wait events it produces
(in order) and the final simulated clock, which becomes the makespan. -/
def simulate_multi_bot_stats (trace : List WaitEvent) (endTime : ℚ) : CollisionStats :=
  let s := trace.foldl recordWait CollisionStats.init
  { s with makespan := endTime }

theorem recordWait_invariant (s : CollisionStats) (e : WaitEvent)
    (h : 0 ≤ s.total_wait_time ∧ 0 ≤ s.max_wait_time ∧ s.max_wait_time ≤ s.total_wait_time) :
    0 ≤ (recordWait s e).total_wait_time ∧ 0 ≤ (recordWait s e).max_wait_time ∧
      (recordWait s e).max_wait_time ≤ (recordWait s e).total_wait_time := by
  obtain ⟨h1, h2, h3⟩ := h
  unfold recordWait
  by_cases hd : 0 < e.dur
  · simp only [hd, if_true]
    by_cases hm : s.max_wait_time < e.dur
    · simp only [hm, if_true]
      refine ⟨by linarith, by linarith, by linarith⟩
    · simp only [hm, if_false]
      refine ⟨by linarith, by linarith, by linarith⟩
  · simp only [hd, if_false]
    exact ⟨h1, h2, h3⟩

theorem foldl_recordWait_invariant (trace : List WaitEvent) :
    ∀ s : CollisionStats,
      (0 ≤ s.total_wait_time ∧ 0 ≤ s.max_wait_time ∧ s.max_wait_time ≤ s.total_wait_time) →
      (0 ≤ (trace.foldl recordWait s).total_wait_time ∧
        0 ≤ (trace.foldl recordWait s).max_wait_time ∧
        (trace.foldl recordWait s).max_wait_time ≤ (trace.foldl recordWait s).total_wait_time) := by
  induction trace with
  | nil => intro s h; simpa using h
  | cons e rest ih =>
    intro s h
    simpa using ih (recordWait s e) (recordWait_invariant s e h)

/-- C8: for every wait-event trace a SimPy run can produce and every final
clock value, the CollisionStats returned at simulation end satisfy
`total_wait_time >= 0` and `max_wait_time <= total_wait_time`. -/
theorem multi_bot_stats_wait_bounds (trace : List WaitEvent) (endTime : ℚ) :
    0 ≤ (simulate_multi_bot_stats trace endTime).total_wait_time ∧
      (simulate_multi_bot_stats trace endTime).max_wait_time ≤
        (simulate_multi_bot_stats trace endTime).total_wait_time := by
  have h := foldl_recordWait_invariant trace CollisionStats.init
    (by refine ⟨le_refl 0, le_refl 0, le_refl 0⟩)
  exact ⟨h.1, h.2.2⟩

/-! ## src/module3_simulation.py (replanning executor) -/

/-- Embeds the `OrderKPIs` class. -/
structure OrderKPIs where
  start_time : ℚ
  end_time : Option ℚ
  waits_s : ℚ
  replan_count : ℕ
  success : Bool
  planning_time_s : ℚ

/-- Fresh KPIs for an order launched at `t` (constructor defaults). -/
def OrderKPIs.new (t : ℚ) : OrderKPIs :=
  ⟨t, none, 0, 0, false, 0⟩

/-- One round of the `monitor()` loop in `launch_order`, reacting to the value
returned by `robot_process`.  `robotSucceeded` is that return value: `False`
means the robot hit a blocked next cell (the transition into the Blocked
state), `True` means it reached its goal (and had already set `success`).
`blocked` is the blocked set at that instant, `plan` the stale plan, and
`replanner fallback blocked` the result of the `astar_path_avoid` call (with
its `except` fallback) used to rebuild the plan.  The result is either a
final KPI record (the order terminates) or the new plan to follow. -/
def monitorStep (replanner : ℕ → Finset ℕ → List ℕ) (now : ℚ) (blocked : Finset ℕ)
    (plan : List ℕ) (kpi : OrderKPIs) (robotSucceeded : Bool) :
    Sum OrderKPIs (List ℕ × OrderKPIs) :=
  if robotSucceeded then
    Sum.inl { kpi with end_time := some now }
  else
    let kpi2 := { kpi with replan_count := kpi.replan_count + 1 }
    match plan.find? (fun n => decide (n ∉ blocked)) with
    | none => Sum.inl { kpi2 with end_time := some now, success := false }
    | some fallback => Sum.inr (replanner fallback blocked, kpi2)

/-- The whole `monitor()` loop, driven by the sequence of
(clock, blocked set, robot outcome) observations; `none` means the
simulation cutoff arrived before the order terminated. -/
def monitorRun (replanner : ℕ → Finset ℕ → List ℕ) :
    List (ℚ × Finset ℕ × Bool) → List ℕ → OrderKPIs → Option OrderKPIs
  | [], _, _ => none
  | (now, blocked, res) :: rest, plan, kpi =>
    match monitorStep replanner now blocked plan kpi res with
    | Sum.inl final => some final
    | Sum.inr (newPlan, kpi2) => monitorRun replanner rest newPlan kpi2

/-- C7: (a) every transition of an order into the Blocked state (the robot
reports `False` because its next required cell is blocked) increments the
order's replan counter by exactly one — unconditionally, whether the step
then replans onto a fallback node (`Sum.inr`) or terminates (`Sum.inl`);
(b) when additionally no unblocked node exists on the stale path, the order
terminates at this event as a normal record marked failed (`success = false`)
— it is neither an error (`monitorRun` yields `some` record) nor
resimulated. -/
theorem blocked_increments_replan_and_fails_without_fallback
    (replanner : ℕ → Finset ℕ → List ℕ) (now : ℚ) (blocked : Finset ℕ)
    (plan : List ℕ) (kpi : OrderKPIs) (rest : List (ℚ × Finset ℕ × Bool)) :
    (∀ plan2 kpi2, monitorStep replanner now blocked plan kpi false = Sum.inr (plan2, kpi2) →
        kpi2.replan_count = kpi.replan_count + 1) ∧
    (∀ final, monitorStep replanner now blocked plan kpi false = Sum.inl final →
        final.replan_count = kpi.replan_count + 1) ∧
    ((∀ n ∈ plan, n ∈ blocked) →
      monitorRun replanner ((now, blocked, false) :: rest) plan kpi =
        some { kpi with
          replan_count := kpi.replan_count + 1
          end_time := some now
          success := false }) := by
  refine ⟨?_, ?_, ?_⟩
  · intro plan2 kpi2 hstep
    unfold monitorStep at hstep
    simp only [if_neg (by simp : ¬ (false = true))] at hstep
    cases hf : plan.find? (fun n => decide (n ∉ blocked)) with
    | none => rw [hf] at hstep; simp at hstep
    | some fb =>
      rw [hf] at hstep
      simp only [Sum.inr.injEq, Prod.mk.injEq] at hstep
      rw [← hstep.2]
  · intro final hstep
    unfold monitorStep at hstep
    simp only [if_neg (by simp : ¬ (false = true))] at hstep
    cases hf : plan.find? (fun n => decide (n ∉ blocked)) with
    | none =>
      rw [hf] at hstep
      simp only [Sum.inl.injEq] at hstep
      rw [← hstep]
    | some fb => rw [hf] at hstep; simp at hstep
  · intro hall
    have hfind : plan.find? (fun n => decide (n ∉ blocked)) = none := by
      rw [List.find?_eq_none]
      intro n hn
      simpa using hall n hn
    unfold monitorRun monitorStep
    simp only [if_neg (by simp : ¬ (false = true)), hfind]

/-- C7 witness: a concrete order whose stale plan `[3, 4]` is entirely inside
the blocked set `{3, 4, 5}` terminates failed with its replan counter
incremented from 0 to 1. -/
theorem blocked_increments_replan_witness :
    monitorRun (fun fb _ => [fb]) [(2, ({3, 4, 5} : Finset ℕ), false)] [3, 4] (OrderKPIs.new 0) =
      some { OrderKPIs.new 0 with
        replan_count := 1
        end_time := some 2
        success := false } :=
  (blocked_increments_replan_and_fails_without_fallback (fun fb _ => [fb]) 2 {3, 4, 5}
    [3, 4] (OrderKPIs.new 0) []).2.2 (by decide)

/-! ## src/sim/routing.py -/

/-- Float costs: either a finite value or `float('inf')`. -/
inductive FCost where
  | fin (q : ℚ)
  | inf
deriving DecidableEq

/-- `abs` on Python ints. -/
def iabs (x : ℤ) : ℤ :=
  if x < 0 then -x else x

/-- The float literal `1.4142` used for diagonal moves. -/
def sqrt2lit : ℚ :=
  mkRat 7071 5000

/-- `manhattan(a, b)` of src/sim/routing.py, as the rational it contributes
to the A* keys. -/
def manhattan (a b : Pos) : ℚ :=
  ((iabs (a.1 - b.1) + iabs (a.2 - b.2) : ℤ) : ℚ)

/-- `octile(a, b)`: `(dx + dy) + (1.4142 - 2) * min(dx, dy)`. -/
def octile (a b : Pos) : ℚ :=
  let dx : ℚ := ((iabs (a.1 - b.1) : ℤ) : ℚ)
  let dy : ℚ := ((iabs (a.2 - b.2) : ℤ) : ℚ)
  (dx + dy) + (sqrt2lit - 2) * (if dx ≤ dy then dx else dy)

/-- Edge weight: `1.0 if (v[0]==u[0] or v[1]==u[1]) else 1.4142`. -/
def wOf (u v : Pos) : ℚ :=
  if v.1 = u.1 ∨ v.2 = u.2 then 1 else sqrt2lit

/-- Python tuple `<=` on positions. -/
def posLe (a b : Pos) : Bool :=
  decide (a.1 < b.1) || (decide (a.1 = b.1) && decide (a.2 ≤ b.2))

/-- Order in which `heapq` pops entries.  `dijkstra` pushes `(nd, v)` pairs
and `astar` pushes `(f, g, v)` triples with `f = g + h(v)`; both orders are
captured by comparing `(g + h v, g, v)` lexicographically, where `h = 0`
for `dijkstra` (there `f = g`, so the triple order collapses to the pair
order). -/
def entryLe (h : Pos → ℚ) (e1 e2 : ℚ × Pos) : Bool :=
  decide (e1.1 + h e1.2 < e2.1 + h e2.2) ||
    (decide (e1.1 + h e1.2 = e2.1 + h e2.2) &&
      (decide (e1.1 < e2.1) || (decide (e1.1 = e2.1) && posLe e1.2 e2.2)))

/-- `heapq.heappush`: the queue is modeled as a list sorted by `entryLe`
(identical keys are interchangeable, so this captures exactly the pop-min
behavior of the binary heap). -/
def insertSorted (h : Pos → ℚ) (e : ℚ × Pos) : List (ℚ × Pos) → List (ℚ × Pos)
  | [] => [e]
  | x :: xs => if entryLe h e x then e :: x :: xs else x :: insertSorted h e xs

/-- The in-loop state of a search: tentative distances, predecessors, the
priority queue, and the nodes-expanded counter. -/
structure SearchSt where
  dist : Pos → Option ℚ
  prev : Pos → Option Pos
  queue : List (ℚ × Pos)
  exp : ℕ

/-- The relaxation loop `for v in grid.neighbors(u): ...` shared verbatim by
`dijkstra` and `astar` (the latter additionally computes `f = ng + h v` for
the pushed entry, which `insertSorted h` accounts for). -/
def relaxNbrs (h : Pos → ℚ) (u : Pos) (d : ℚ) :
    List Pos → (Pos → Option ℚ) → (Pos → Option Pos) → List (ℚ × Pos) →
    (Pos → Option ℚ) × (Pos → Option Pos) × List (ℚ × Pos)
  | [], dist, prev, queue => (dist, prev, queue)
  | v :: vs, dist, prev, queue =>
    let nd := d + wOf u v
    let improved : Bool :=
      match dist v with
      | none => true
      | some dv => decide (nd < dv)
    if improved then
      relaxNbrs h u d vs (fun p => if p = v then some nd else dist p)
        (fun p => if p = v then some u else prev p) (insertSorted h (nd, v) queue)
    else
      relaxNbrs h u d vs dist prev queue

/-- The `while pq:` loop of both searches.  One fuel unit per pop; the fuel
passed by the wrappers is provably sufficient, so exhaustion never occurs on
any input (`search_fuel_sufficient` below). -/
def searchLoop (g : Grid) (goal : Pos) (h : Pos → ℚ) :
    ℕ → SearchSt → SearchSt
  | 0, st => st
  | fuel + 1, st =>
    match st.queue with
    | [] => st
    | (d, u) :: rest =>
      let e2 := st.exp + 1
      if u = goal then { st with queue := rest, exp := e2 }
      else if st.dist u ≠ some d then
        searchLoop g goal h fuel { st with queue := rest, exp := e2 }
      else
        let r := relaxNbrs h u d (g.neighbors u) st.dist st.prev rest
        searchLoop g goal h fuel ⟨r.1, r.2.1, r.2.2, e2⟩

/-- `reconstruct_path`, walking `came_from` from the goal back to the start
(accumulating forward, which is the `path.reverse()` of the source). -/
def reconAux (prev : Pos → Option Pos) (s : Pos) : ℕ → Pos → List Pos → List Pos
  | 0, cur, acc => cur :: acc
  | fuel + 1, cur, acc =>
    if cur = s then cur :: acc
    else
      match prev cur with
      | none => cur :: acc
      | some p => reconAux prev s fuel p (cur :: acc)

/-- Fuel that provably dominates the number of loop iterations: at most one
settling pop per candidate cell, at most 8 pushes per settling pop.  Extra
fuel is harmless: once the queue is empty the loop is the identity. -/
def searchFuel (g : Grid) : ℕ :=
  9 * (g.width.toNat * g.height.toNat) + 32

/-- The state both searches start from: `dist = {start: 0}`, empty `prev`,
`pq = [(0, start)]` (for A* the entry also carries `f = 0 + h(start)`,
which `entryLe h` recomputes). -/
def initSt (s : Pos) : SearchSt :=
  ⟨fun p => if p = s then some 0 else none, fun _ => none, [(0, s)], 0⟩

/-- Shared shape of `dijkstra` and `astar`: run the loop, then return
`([], inf)` if the goal never entered `dist`, else the reconstructed path
and `dist[goal]`. -/
def searchRun (g : Grid) (s t : Pos) (h : Pos → ℚ) : List Pos × FCost × ℕ :=
  let st := searchLoop g t h (searchFuel g) (initSt s)
  match st.dist t with
  | none => ([], FCost.inf, st.exp)
  | some c => (reconAux st.prev s (searchFuel g) t [], FCost.fin c, st.exp)

/-- `dijkstra(grid, start, goal)`. -/
def dijkstra (g : Grid) (s t : Pos) : List Pos × FCost × ℕ :=
  searchRun g s t (fun _ => 0)

/-- `astar(grid, start, goal, heuristic=None, diag_allowed=True)`; a `none`
heuristic selects octile when `diag_allowed` else manhattan, each applied to
`(v, goal)`. -/
def astar (g : Grid) (s t : Pos) (heuristic : Option (Pos → Pos → ℚ))
    (diag_allowed : Bool) : List Pos × FCost × ℕ :=
  let hfun := heuristic.getD (if diag_allowed then octile else manhattan)
  searchRun g s t (fun v => hfun v t)

/-! ## src/sim/distance_service.py -/

/-- Python `min(a, b)` on position tuples: `b` if `b < a` else `a`. -/
def posMin (a b : Pos) : Pos :=
  if posLt b a then b else a

/-- Python `max(a, b)` on position tuples: `b` if `a < b` else `a`. -/
def posMax (a b : Pos) : Pos :=
  if posLt a b then b else a

/-- The in-memory cache `self.cache` of `DistanceService` (the pickle
file persistence is out of scope; an arbitrary initial cache models a
previously loaded one). -/
abbrev DsCache : Type := List ((Pos × Pos) × FCost)

/-- Dictionary lookup `key in self.cache` / `self.cache[key]`. -/
def cacheLookup (c : DsCache) (k : Pos × Pos) : Option FCost :=
  (c.find? (fun e => decide (e.1 = k))).map (fun e => e.2)

/-- `DistanceService.get_distance(a, b, diag_allowed)`.  Returns the cost,
the updated cache, and the number of shortest-path searches performed
(0 on the `a == b` early return and on cache hits, 1 otherwise). -/
def get_distance (g : Grid) (cache : DsCache) (a b : Pos) (diag_allowed : Bool) :
    FCost × DsCache × ℕ :=
  if a = b then (FCost.fin 0, cache, 0)
  else
    let key := (posMin a b, posMax a b)
    match cacheLookup cache key with
    | some c => (c, cache, 0)
    | none =>
      let r := astar g a b none diag_allowed
      (r.2.1, (key, r.2.1) :: cache, 1)

/-- The `(i, j)` pairs of the precomputation loops of `pairwise_distances`:
`i in range(n)` outer, `j in range(i+1, n)` inner. -/
def wpPairs (n : ℕ) : List (ℕ × ℕ) :=
  (List.range n).flatMap (fun i => (List.range' (i + 1) (n - (i + 1))).map (fun j => (i, j)))

/-- One iteration of the precomputation: look up / compute the distance for
waypoints `i, j` and store it at both `[i][j]` and `[j][i]`. -/
def fillPair (g : Grid) (wps : List Pos) (diag : Bool)
    (st : (ℕ → ℕ → FCost) × DsCache × ℕ) (p : ℕ × ℕ) : (ℕ → ℕ → FCost) × DsCache × ℕ :=
  let r := get_distance g st.2.1 (wps.getD p.1 (0, 0)) (wps.getD p.2 (0, 0)) diag
  (fun x y =>
      if (x = p.1 ∧ y = p.2) ∨ (x = p.2 ∧ y = p.1) then r.1 else st.1 x y,
    r.2.1, st.2.2 + r.2.2)

/-- `DistanceService.pairwise_distances(waypoints, diag_allowed)`: the matrix
is initialized to `0.0` everywhere and filled symmetrically; the returned
`dist_fn` reads the matrix.  Also returns the final cache and the total
number of shortest-path searches. -/
def pairwise_distances (g : Grid) (cache : DsCache) (wps : List Pos) (diag : Bool) :
    (ℕ → ℕ → FCost) × DsCache × ℕ :=
  (wpPairs wps.length).foldl (fillPair g wps diag) (fun _ _ => FCost.fin 0, cache, 0)

theorem wpPairs_lt {n i j : ℕ} (h : (i, j) ∈ wpPairs n) : i < j := by
  simp only [wpPairs, List.mem_flatMap, List.mem_map, List.mem_range'_1, List.mem_range] at h
  obtain ⟨a, _, b, ⟨hb1, _⟩, heq⟩ := h
  simp only [Prod.mk.injEq] at heq
  obtain ⟨rfl, rfl⟩ := heq
  omega

theorem fillPair_foldl_inv (g : Grid) (wps : List Pos) (diag : Bool)
    (l : List (ℕ × ℕ)) (hl : ∀ p ∈ l, p.1 < p.2) :
    ∀ st : (ℕ → ℕ → FCost) × DsCache × ℕ,
      (∀ x y, st.1 x y = st.1 y x) → (∀ x, st.1 x x = FCost.fin 0) →
      (∀ x y, (l.foldl (fillPair g wps diag) st).1 x y =
          (l.foldl (fillPair g wps diag) st).1 y x) ∧
      (∀ x, (l.foldl (fillPair g wps diag) st).1 x x = FCost.fin 0) := by
  induction l with
  | nil => intro st h1 h2; exact ⟨h1, h2⟩
  | cons p rest ih =>
    intro st h1 h2
    have hp : p.1 < p.2 := hl p (List.mem_cons_self p rest)
    refine ih (fun q hq => hl q (List.mem_cons_of_mem p hq)) (fillPair g wps diag st p) ?_ ?_
    · intro x y
      simp only [fillPair]
      by_cases hxy : (x = p.1 ∧ y = p.2) ∨ (x = p.2 ∧ y = p.1)
      · rw [if_pos hxy, if_pos (by tauto)]
      · rw [if_neg hxy, if_neg (by tauto)]
        exact h1 x y
    · intro x
      simp only [fillPair]
      rw [if_neg (by omega)]
      exact h2 x

/-- C4: the distance function built by `pairwise_distances` is symmetric and
zero on the diagonal (for every grid, initial cache, waypoint list and all
indices, in or out of range), and `get_distance` on equal positions returns
0.0 immediately: the cache is untouched and no shortest-path search runs. -/
theorem distance_oracle_symm_zero_diag (g : Grid) (cache : DsCache) (wps : List Pos)
    (diag : Bool) (i j : ℕ) :
    (pairwise_distances g cache wps diag).1 i j = (pairwise_distances g cache wps diag).1 j i ∧
    (pairwise_distances g cache wps diag).1 i i = FCost.fin 0 ∧
    (∀ a : Pos, ∀ diagf : Bool, get_distance g cache a a diagf = (FCost.fin 0, cache, 0)) := by
  have h := fillPair_foldl_inv g wps diag (wpPairs wps.length)
    (fun p hp => wpPairs_lt (by simpa using hp))
    (fun _ _ => FCost.fin 0, cache, 0) (fun _ _ => rfl) (fun _ => rfl)
  exact ⟨h.1 i j, h.2 i, fun a diagf => by simp [get_distance]⟩

/-! ## src/algos/tsp_ga.py -/

/-- Oracle for the pseudo-random draws of `ga_tsp`: the t-th call to each
primitive is answered by the corresponding field (a call consumes one tick of
the shared counter; the two Python generators `rng` and the module-level
`random` are special cases of this family of oracles). -/
structure GaRand where
  shuffle : ℕ → List ℕ → List ℕ
  randrange : ℕ → ℕ → ℕ
  rand : ℕ → ℚ
  sample2 : ℕ → ℕ → ℕ → ℕ × ℕ

/-- Python list comparison (used by `min` on `(score, individual)` ties). -/
def pyListLt : List ℕ → List ℕ → Bool
  | [], [] => false
  | [], _ :: _ => true
  | _ :: _, [] => false
  | a :: as, b :: bs => decide (a < b) || (decide (a = b) && pyListLt as bs)

/-- Python tuple comparison on `(score, individual)`. -/
def pairLt (x y : ℚ × List ℕ) : Bool :=
  decide (x.1 < y.1) || (decide (x.1 = y.1) && pyListLt x.2 y.2)

/-- `min(zip(scores, P))[1]`: the first minimal pair wins ties. -/
def pyMinSnd (l : List (ℚ × List ℕ)) : List ℕ :=
  match l with
  | [] => []
  | x :: xs => (xs.foldl (fun acc y => if pairLt y acc then y else acc) x).2

/-- `ox_crossover(p1, p2)`: for tours shorter than 4 return a copy of `p1`;
otherwise copy the slice `p1[a:b]` and fill the remaining positions (the
prefix of length `a` and the suffix) in `p2` order. -/
def ox_crossover (R : GaRand) (t : ℕ) (p1 p2 : List ℕ) : List ℕ × ℕ :=
  if p1.length < 4 then (p1, t)
  else
    let s := R.sample2 t 1 (p1.length - 1)
    let a := if s.1 ≤ s.2 then s.1 else s.2
    let b := if s.1 ≤ s.2 then s.2 else s.1
    let slice := (p1.drop a).take (b - a)
    let fill := p2.filter (fun x => decide (x ∉ slice))
    (fill.take a ++ slice ++ fill.drop a, t + 1)

/-- Simultaneous `p[i], p[j] = p[j], p[i]`. -/
def swapIdx (p : List ℕ) (i j : ℕ) : List ℕ :=
  (p.set i (gidx p j)).set j (gidx p i)

/-- `mutate_swap(p, pm)`: one `random()` draw, then (for tours of length at
least 4) a two-index sample from `range(1, len(p)-1)` and a swap. -/
def mutate_swap (R : GaRand) (t : ℕ) (pm : ℚ) (p : List ℕ) : List ℕ × ℕ :=
  if R.rand t < pm then
    if p.length < 4 then (p, t + 1)
    else
      let s := R.sample2 (t + 1) 1 (p.length - 1)
      (swapIdx p s.1 s.2, t + 2)
  else (p, t + 1)

/-- `mk_ind`: `base[1:]` shuffled, with the start index prepended.  (This is
the slip behind claim C1: for `start != 0` the individual contains `start`
twice and never contains 0.) -/
def mk_ind (R : GaRand) (t : ℕ) (n start : ℕ) : List ℕ × ℕ :=
  (start :: R.shuffle t ((List.range n).drop 1), t + 1)

/-- `P = [mk_ind() for _ in range(pop)]`. -/
def mkPop (R : GaRand) (n start : ℕ) : ℕ → ℕ → List (List ℕ) × ℕ
  | 0, t => ([], t)
  | k + 1, t =>
    let i := mk_ind R t n start
    let rest := mkPop R n start k i.2
    (i.1 :: rest.1, rest.2)

/-- Binary-tournament selection of `pop` parents. -/
def selectParents (R : GaRand) (P : List (List ℕ)) (scores : List ℚ) (pop : ℕ) :
    ℕ → ℕ → List (List ℕ) × ℕ
  | 0, t => ([], t)
  | k + 1, t =>
    let i := R.randrange t pop
    let j := R.randrange (t + 1) pop
    let par := if scores.getD i 0 < scores.getD j 0 then P.getD i [] else P.getD j []
    let rest := selectParents R P scores pop k (t + 2)
    (par :: rest.1, rest.2)

/-- One pass of the crossover-and-mutate body for a parent pair: crossover
with probability `pc` (note `c2` crosses with the new `c1`), then both
children are passed through `mutate_swap`. -/
def crossStep (R : GaRand) (pc pm : ℚ) (c1 c2 : List ℕ) (t : ℕ) :
    List ℕ × List ℕ × ℕ :=
  if R.rand t < pc then
    let x1 := ox_crossover R (t + 1) c1 c2
    let x2 := ox_crossover R x1.2 c2 x1.1
    let m1 := mutate_swap R x2.2 pm x1.1
    let m2 := mutate_swap R m1.2 pm x2.1
    (m1.1, m2.1, m2.2)
  else
    let m1 := mutate_swap R (t + 1) pm c1
    let m2 := mutate_swap R m1.2 pm c2
    (m1.1, m2.1, m2.2)

/-- `for i in range(0, pop, 2)` over the parent list.  (A trailing odd parent
cannot occur for the even population sizes the source is run with.) -/
def crossAll (R : GaRand) (pc pm : ℚ) : List (List ℕ) → ℕ → List (List ℕ) × ℕ
  | [], t => ([], t)
  | [c], t => ([c], t)
  | c1 :: c2 :: rest, t =>
    let s := crossStep R pc pm c1 c2 t
    let r := crossAll R pc pm rest s.2.2
    (s.1 :: s.2.1 :: r.1, r.2)

/-- The generation loop of `ga_tsp`, carrying population, scores, the best
individual seen, and the oracle counter. -/
def gaLoop (R : GaRand) (d : DFun) (pop : ℕ) (pc pm : ℚ) :
    ℕ → List (List ℕ) → List ℚ → List ℕ → ℕ → List ℕ
  | 0, _, _, best, _ => best
  | g + 1, P, scores, best, t =>
    let sel := selectParents R P scores pop pop t
    let ch := crossAll R pc pm sel.1 sel.2
    let scores2 := ch.1.map (tour_length d)
    let cur_best := pyMinSnd (scores2.zip ch.1)
    let best2 := if tour_length d cur_best < tour_length d best then cur_best else best
    gaLoop R d pop pc pm g ch.1 scores2 best2 ch.2

/-- `ga_tsp(dist, n, start, pop, gens, pc, pm, seed)`; the seeded generators
are the oracle `R`. -/
def ga_tsp (d : DFun) (n start : ℕ) (pop gens : ℕ) (pc pm : ℚ) (R : GaRand) :
    List ℕ × ℚ :=
  let P0 := mkPop R n start pop 0
  let scores0 := P0.1.map (tour_length d)
  let best0 := pyMinSnd (scores0.zip P0.1)
  let r := gaLoop R d pop pc pm gens P0.1 scores0 best0 P0.2
  (r, tour_length d r)

/-- A concrete oracle: shuffles are the identity, `randrange` returns 0,
`random()` returns 1, samples return `(lo, lo+1)`.  (For `n = 2` the result
of `ga_tsp` is the same for every oracle: the shuffle of the singleton
`base[1:]` is forced, crossover and mutation leave 2-element tours
unchanged.) -/
def trivialRand : GaRand :=
  ⟨fun _ l => l, fun _ _ => 0, fun _ => 1, fun _ lo _ => (lo, lo + 1)⟩

unseal Rat.add Rat.sub Rat.mul in
/-- C1: the genetic solver violates the permutation contract.  With `n = 2`
and `start = 1` (unit distances, population 2, one generation), `ga_tsp`
returns the order `[1, 1]`: the start index is duplicated and index 0 never
appears, so the result is not a permutation of `0..n-1`.  `mk_ind` builds
`[start] + shuffle(base[1:])`, which is only correct for `start = 0`. -/
theorem ga_tsp_returns_non_permutation :
    (ga_tsp (fun _ _ => (1 : ℚ)) 2 1 2 1 (mkRat 9 10) (mkRat 2 10) trivialRand).1 = [1, 1] ∧
    ¬ (ga_tsp (fun _ _ => (1 : ℚ)) 2 1 2 1 (mkRat 9 10) (mkRat 2 10) trivialRand).1.Perm
        (List.range 2) := by
  refine ⟨by decide, by decide⟩

/-! ## src/algos/tsp_exact.py -/

/-- Float addition: `inf + x = inf`. -/
def FCost.add : FCost → FCost → FCost
  | FCost.fin a, FCost.fin b => FCost.fin (a + b)
  | _, _ => FCost.inf

/-- Float `<`: `inf < inf` is false, `x < inf` is true for finite x. -/
def FCost.blt : FCost → FCost → Bool
  | FCost.fin a, FCost.fin b => decide (a < b)
  | FCost.fin _, FCost.inf => true
  | FCost.inf, _ => false

/-- Distance functions as seen by the exact solver (the distance oracle can
yield `float('inf')` for unreachable pairs). -/
abbrev DFunF : Type := ℕ → ℕ → FCost

/-- `tour_length` of src/algos/tsp_exact.py over float costs. -/
def tour_lengthF (d : DFunF) : List ℕ → FCost
  | [] => FCost.fin 0
  | [_] => FCost.fin 0
  | a :: b :: rest => FCost.add (d a b) (tour_lengthF d (b :: rest))

/-- `mask & ~(1 << i)` on Python ints: clear bit `i`. -/
def clearBit (mask i : ℕ) : ℕ :=
  if mask.testBit i then mask - (1 <<< i) else mask

theorem clearBit_lt {mask i : ℕ} (h : mask.testBit i) : clearBit mask i < mask := by
  have hge : 2 ^ i ≤ mask := Nat.testBit_implies_ge h
  have hpos : 0 < 2 ^ i := Nat.pos_pow_of_pos i (by omega)
  simp only [clearBit, h, if_true, Nat.shiftLeft_eq, Nat.one_mul]
  omega

/-- The memoization state of one `held_karp` call: the `lru_cache` table
(append-at-end, first match wins, exactly the first-computed-value-sticks
behavior of `lru_cache`), the `memo_stats['calls']` counter (incremented on
every actual body execution), and the count of elapsed-time polls made so
far (indexing the oracle `timeO`). -/
structure HkSt where
  memo : List ((ℕ × ℕ) × (FCost × Option ℕ))
  calls : ℕ
  checks : ℕ

/-- `lru_cache` lookup. -/
def hkLookup (memo : List ((ℕ × ℕ) × (FCost × Option ℕ))) (k : ℕ × ℕ) :
    Option (FCost × Option ℕ) :=
  (memo.find? (fun e => decide (e.1 = k))).map (fun e => e.2)

/-- The `for j in range(n)` loop inside `dp`, with the in-loop time check
that returns the partial best early.  `rec j st` is the recursive call
`dp(prev_mask, j)` (tied by `dpGo` below). -/
def dpLoop (dist : DFunF) (timeO : ℕ → Bool) (i prevMask : ℕ)
    (rec : ℕ → HkSt → (FCost × Option ℕ) × HkSt) :
    List ℕ → (FCost × Option ℕ) → HkSt → (FCost × Option ℕ) × HkSt
  | [], best, st => (best, st)
  | j :: js, best, st =>
    if prevMask.testBit j then
      let g := rec j st
      let cand := FCost.add g.1.1 (dist j i)
      let best2 := if FCost.blt cand best.1 then (cand, some j) else best
      if timeO g.2.checks then (best2, ⟨g.2.memo, g.2.calls, g.2.checks + 1⟩)
      else dpLoop dist timeO i prevMask rec js best2 ⟨g.2.memo, g.2.calls, g.2.checks + 1⟩
    else dpLoop dist timeO i prevMask rec js best st

/-- `dp(mask, i)`: the memoized recursion of `held_karp`.  The predecessor
`-1` of the source is `none`.  Recursion is on a fuel that strictly dominates
`mask` at every reachable call (`held_karp` passes `full + 1` and recursive
calls shrink the mask), so the fuel-exhausted branch is unreachable. -/
def dpGo (dist : DFunF) (start n : ℕ) (timeO : ℕ → Bool) :
    ℕ → ℕ → ℕ → HkSt → (FCost × Option ℕ) × HkSt
  | 0, _, _, st => ((FCost.inf, none), st)
  | fuel + 1, mask, i, st =>
    match hkLookup st.memo (mask, i) with
    | some v => (v, st)
    | none =>
      let st1 : HkSt := ⟨st.memo, st.calls + 1, st.checks⟩
      if mask = (1 <<< start) ||| (1 <<< i) then
        let v := (dist start i, some start)
        (v, ⟨st1.memo ++ [((mask, i), v)], st1.calls, st1.checks⟩)
      else
        let r := dpLoop dist timeO i (clearBit mask i)
          (fun j st2 => dpGo dist start n timeO fuel (clearBit mask i) j st2)
          (List.range n) (FCost.inf, none) st1
        (r.1, ⟨r.2.memo ++ [((mask, i), r.1)], r.2.calls, r.2.checks⟩)

/-- The `for i in range(n)` scan of `held_karp` over the full mask, tracking
`(best_cost, end)` and breaking on a timeout poll. -/
def hkScan (dist : DFunF) (start n : ℕ) (timeO : ℕ → Bool) (full : ℕ) :
    List ℕ → (FCost × Option ℕ) → HkSt → (FCost × Option ℕ) × HkSt
  | [], best, st => (best, st)
  | i :: is, best, st =>
    if i = start then hkScan dist start n timeO full is best st
    else
      let r := dpGo dist start n timeO (full + 1) full i st
      let best2 := if FCost.blt r.1.1 best.1 then (r.1.1, some i) else best
      if timeO r.2.checks then (best2, ⟨r.2.memo, r.2.calls, r.2.checks + 1⟩)
      else hkScan dist start n timeO full is best2 ⟨r.2.memo, r.2.calls, r.2.checks + 1⟩

/-- The predecessor walk reconstructing the optimal order (the source builds
`order` and reverses it; here the cons-accumulation builds the reversed list
directly).  `none` models the `ValueError` the source would raise on a `-1`
predecessor — proved unreachable. -/
def hkRecon (dist : DFunF) (start n : ℕ) (timeO : ℕ → Bool) :
    ℕ → ℕ → ℕ → List ℕ → HkSt → Option (List ℕ × HkSt)
  | 0, _, _, _, _ => none
  | fuel + 1, mask, i, acc, st =>
    if i = start then some (acc, st)
    else
      let r := dpGo dist start n timeO (mask + 1) mask i st
      match r.1.2 with
      | none => none
      | some j => hkRecon dist start n timeO fuel (clearBit mask i) j (j :: acc) r.2

/-- `held_karp(dist, n, start, time_limit)`.  Returns the order, its cost and
the `memo_stats` call counter; `none` stands for an uncaught exception. -/
def held_karp (dist : DFunF) (n start : ℕ) (timeO : ℕ → Bool) :
    Option (List ℕ × FCost × ℕ) :=
  let full := (1 <<< n) - 1
  let scan := hkScan dist start n timeO full (List.range n) (FCost.inf, none) ⟨[], 0, 0⟩
  match scan.1 with
  | (FCost.fin c, some e) =>
    match hkRecon dist start n timeO (full + 1) full e [e] scan.2 with
    | none => none
    | some (order, st2) => some (order, FCost.fin c, st2.calls)
  | (FCost.fin _, none) => none
  | (FCost.inf, _) =>
    let order := List.range n
    some (order, tour_lengthF dist order, scan.2.calls)

/-! ### Correctness machinery for `held_karp` -/

theorem FCost.blt_ne_inf {a b : FCost} (h : FCost.blt a b = true) : a ≠ FCost.inf := by
  cases a <;> simp_all [FCost.blt]

theorem FCost.add_ne_inf {a b : FCost} (h : FCost.add a b ≠ FCost.inf) : a ≠ FCost.inf := by
  cases a <;> cases b <;> simp_all [FCost.add]

theorem hkLookup_append_left {m1 m2 : List ((ℕ × ℕ) × (FCost × Option ℕ))} {k : ℕ × ℕ}
    {v : FCost × Option ℕ} (h : hkLookup m1 k = some v) : hkLookup (m1 ++ m2) k = some v := by
  simp only [hkLookup, List.find?_append] at h ⊢
  cases hf : m1.find? (fun e => decide (e.1 = k)) with
  | none => rw [hf] at h; simp at h
  | some e => rw [hf] at h; simpa [Option.or] using h

theorem hkLookup_append_singleton_of_none {m : List ((ℕ × ℕ) × (FCost × Option ℕ))}
    {k : ℕ × ℕ} {v : FCost × Option ℕ} (h : hkLookup m k = none) :
    hkLookup (m ++ [(k, v)]) k = some v := by
  simp only [hkLookup, List.find?_append] at h ⊢
  cases hf : m.find? (fun e => decide (e.1 = k)) with
  | none => simp [Option.or, List.find?]
  | some e => rw [hf] at h; simp at h

theorem hkLookup_append_singleton_cases {m : List ((ℕ × ℕ) × (FCost × Option ℕ))}
    {k k0 : ℕ × ℕ} {v v0 : FCost × Option ℕ}
    (h : hkLookup (m ++ [(k0, v0)]) k = some v) :
    hkLookup m k = some v ∨ (k = k0 ∧ v = v0) := by
  simp only [hkLookup, List.find?_append] at h
  cases hf : m.find? (fun e => decide (e.1 = k)) with
  | none =>
    rw [hf] at h
    right
    by_cases hk : k0 = k
    · subst hk
      simp [List.find?, Option.or] at h
      exact ⟨rfl, h.symm⟩
    · simp [List.find?, hk, Option.or] at h
  | some e =>
    rw [hf] at h
    left
    simp only [Option.or] at h
    simp only [hkLookup, hf]
    exact h

/-- The memo invariant of `held_karp`: every cached key has its `i` bit set
in its mask, and every finite cached value records a predecessor that is
either the start (in particular at base-case keys) or a set bit of the
shrunk mask whose own cache entry exists and is finite. -/
def hkGood (start : ℕ) (memo : List ((ℕ × ℕ) × (FCost × Option ℕ))) : Prop :=
  ∀ mask i c p, hkLookup memo (mask, i) = some (c, p) →
    mask.testBit i = true ∧
    (c ≠ FCost.inf →
      ∃ j, p = some j ∧
        (j = start ∨
          ((clearBit mask i).testBit j = true ∧
            ∃ v, hkLookup memo (clearBit mask i, j) = some v ∧ v.1 ≠ FCost.inf)))

theorem dpLoop_inv (dist : DFunF) (timeO : ℕ → Bool) (start i prevMask : ℕ)
    (rec : ℕ → HkSt → (FCost × Option ℕ) × HkSt)
    (hrec : ∀ j st, prevMask.testBit j = true → hkGood start st.memo →
      hkGood start (rec j st).2.memo ∧
      (∀ k v, hkLookup st.memo k = some v → hkLookup (rec j st).2.memo k = some v) ∧
      hkLookup (rec j st).2.memo (prevMask, j) = some (rec j st).1 ∧
      (∀ k v, hkLookup (rec j st).2.memo k = some v →
        hkLookup st.memo k = some v ∨ k.1 ≤ prevMask)) :
    ∀ (js : List ℕ) (best : FCost × Option ℕ) (st : HkSt),
      hkGood start st.memo →
      (best.1 ≠ FCost.inf → ∃ j, best.2 = some j ∧ prevMask.testBit j = true ∧
        ∃ v, hkLookup st.memo (prevMask, j) = some v ∧ v.1 ≠ FCost.inf) →
      hkGood start (dpLoop dist timeO i prevMask rec js best st).2.memo ∧
      (∀ k v, hkLookup st.memo k = some v →
        hkLookup (dpLoop dist timeO i prevMask rec js best st).2.memo k = some v) ∧
      ((dpLoop dist timeO i prevMask rec js best st).1.1 ≠ FCost.inf →
        ∃ j, (dpLoop dist timeO i prevMask rec js best st).1.2 = some j ∧
          prevMask.testBit j = true ∧
          ∃ v, hkLookup (dpLoop dist timeO i prevMask rec js best st).2.memo (prevMask, j) =
            some v ∧ v.1 ≠ FCost.inf) ∧
      (∀ k v, hkLookup (dpLoop dist timeO i prevMask rec js best st).2.memo k = some v →
        hkLookup st.memo k = some v ∨ k.1 ≤ prevMask) := by
  intro js
  induction js with
  | nil =>
    intro best st hgood hbest
    exact ⟨hgood, fun _ _ h => h, hbest, fun _ _ h => Or.inl h⟩
  | cons j js2 ih =>
    intro best st hgood hbest
    by_cases hbit : prevMask.testBit j = true
    · obtain ⟨hg1, hg2, hg3, hg4⟩ := hrec j st hbit hgood
      have hbest2 : ∀ b2 : FCost × Option ℕ,
          b2 = (if FCost.blt (FCost.add (rec j st).1.1 (dist j i)) best.1
            then (FCost.add (rec j st).1.1 (dist j i), some j) else best) →
          (b2.1 ≠ FCost.inf → ∃ j2, b2.2 = some j2 ∧ prevMask.testBit j2 = true ∧
            ∃ v, hkLookup (rec j st).2.memo (prevMask, j2) = some v ∧ v.1 ≠ FCost.inf) := by
        intro b2 hb2
        by_cases hblt : FCost.blt (FCost.add (rec j st).1.1 (dist j i)) best.1 = true
        · rw [if_pos hblt] at hb2
          subst hb2
          intro hfin
          refine ⟨j, rfl, hbit, (rec j st).1, hg3, ?_⟩
          exact FCost.add_ne_inf (FCost.blt_ne_inf hblt)
        · rw [if_neg hblt] at hb2
          subst hb2
          intro hfin
          obtain ⟨j2, he, hb, v, hv, hvf⟩ := hbest hfin
          exact ⟨j2, he, hb, v, hg2 _ _ hv, hvf⟩
      simp only [dpLoop, hbit, if_true]
      by_cases ht : timeO (rec j st).2.checks = true
      · simp only [ht, if_true]
        refine ⟨hg1, fun k v h => hg2 k v h, ?_, fun k v h => hg4 k v h⟩
        exact hbest2 _ rfl
      · simp only [ht, if_false]
        have hst2good : hkGood start
            (HkSt.mk (rec j st).2.memo (rec j st).2.calls ((rec j st).2.checks + 1)).memo := hg1
        obtain ⟨i1, i2, i3, i4⟩ := ih _ (HkSt.mk (rec j st).2.memo (rec j st).2.calls
          ((rec j st).2.checks + 1)) hst2good (hbest2 _ rfl)
        refine ⟨i1, fun k v h => i2 k v (hg2 k v h), i3, ?_⟩
        intro k v h
        rcases i4 k v h with h2 | h2
        · exact hg4 k v h2
        · exact Or.inr h2
    · simp only [dpLoop, hbit]
      simp only [Bool.false_eq_true, if_false]
      exact ih best st hgood hbest

theorem dpGo_inv (dist : DFunF) (start n : ℕ) (timeO : ℕ → Bool) :
    ∀ (fuel mask i : ℕ) (st : HkSt), mask < fuel → mask.testBit i = true →
      hkGood start st.memo →
      hkGood start (dpGo dist start n timeO fuel mask i st).2.memo ∧
      (∀ k v, hkLookup st.memo k = some v →
        hkLookup (dpGo dist start n timeO fuel mask i st).2.memo k = some v) ∧
      hkLookup (dpGo dist start n timeO fuel mask i st).2.memo (mask, i) =
        some (dpGo dist start n timeO fuel mask i st).1 ∧
      (∀ k v, hkLookup (dpGo dist start n timeO fuel mask i st).2.memo k = some v →
        hkLookup st.memo k = some v ∨ k.1 ≤ mask) := by
  intro fuel
  induction fuel with
  | zero => intro mask i st hlt; omega
  | succ f ih =>
    intro mask i st hlt hbit hgood
    simp only [dpGo]
    cases hl : hkLookup st.memo (mask, i) with
    | some v =>
      simp only
      exact ⟨hgood, fun _ _ h => h, hl, fun _ _ h => Or.inl h⟩
    | none =>
      simp only
      by_cases hbase : mask = (1 <<< start) ||| (1 <<< i)
      · rw [if_pos hbase]
        refine ⟨?_, ?_, ?_, ?_⟩
        · intro mask2 i2 c p hlk
          rcases hkLookup_append_singleton_cases hlk with hold | ⟨hk, hv⟩
          · obtain ⟨hb, hrest⟩ := hgood mask2 i2 c p hold
            refine ⟨hb, ?_⟩
            intro hfin
            obtain ⟨j, hj, hcase⟩ := hrest hfin
            refine ⟨j, hj, ?_⟩
            rcases hcase with h1 | ⟨h2, v2, hv2, hv2f⟩
            · exact Or.inl h1
            · exact Or.inr ⟨h2, v2, hkLookup_append_left hv2, hv2f⟩
          · obtain ⟨hk1, hk2⟩ := Prod.mk.injEq _ _ _ _ ▸ hk
            subst hk1; subst hk2
            obtain ⟨hv1, hv2⟩ := Prod.mk.injEq _ _ _ _ ▸ hv
            refine ⟨hbit, ?_⟩
            intro hfin
            exact ⟨start, by rw [← hv2], Or.inl rfl⟩
        · intro k v h
          exact hkLookup_append_left h
        · exact hkLookup_append_singleton_of_none hl
        · intro k v h
          rcases hkLookup_append_singleton_cases h with hold | ⟨hk, -⟩
          · exact Or.inl hold
          · right
            rw [hk]
      · rw [if_neg hbase]
        have hpm : clearBit mask i < mask := clearBit_lt hbit
        have hrec : ∀ j st2, (clearBit mask i).testBit j = true → hkGood start st2.memo →
            hkGood start (dpGo dist start n timeO f (clearBit mask i) j st2).2.memo ∧
            (∀ k v, hkLookup st2.memo k = some v →
              hkLookup (dpGo dist start n timeO f (clearBit mask i) j st2).2.memo k = some v) ∧
            hkLookup (dpGo dist start n timeO f (clearBit mask i) j st2).2.memo
              (clearBit mask i, j) = some (dpGo dist start n timeO f (clearBit mask i) j st2).1 ∧
            (∀ k v, hkLookup (dpGo dist start n timeO f (clearBit mask i) j st2).2.memo k =
              some v → hkLookup st2.memo k = some v ∨ k.1 ≤ clearBit mask i) := by
          intro j st2 hb2 hg2
          exact ih (clearBit mask i) j st2 (by omega) hb2 hg2
        obtain ⟨l1, l2, l3, l4⟩ := dpLoop_inv dist timeO start i (clearBit mask i)
          (fun j st2 => dpGo dist start n timeO f (clearBit mask i) j st2) hrec
          (List.range n) (FCost.inf, none) ⟨st.memo, st.calls + 1, st.checks⟩
          hgood (by intro hc; simp at hc)
        have hnone : hkLookup (dpLoop dist timeO i (clearBit mask i)
            (fun j st2 => dpGo dist start n timeO f (clearBit mask i) j st2)
            (List.range n) (FCost.inf, none) ⟨st.memo, st.calls + 1, st.checks⟩).2.memo
            (mask, i) = none := by
          cases hcon : hkLookup (dpLoop dist timeO i (clearBit mask i)
              (fun j st2 => dpGo dist start n timeO f (clearBit mask i) j st2)
              (List.range n) (FCost.inf, none) ⟨st.memo, st.calls + 1, st.checks⟩).2.memo
              (mask, i) with
          | none => rfl
          | some v =>
            rcases l4 _ _ hcon with hold | hle
            · rw [hl] at hold; exact absurd hold (by simp)
            · omega
        refine ⟨?_, ?_, ?_, ?_⟩
        · intro mask2 i2 c p hlk
          rcases hkLookup_append_singleton_cases hlk with hold | ⟨hk, hv⟩
          · obtain ⟨hb, hrest⟩ := l1 mask2 i2 c p hold
            refine ⟨hb, ?_⟩
            intro hfin
            obtain ⟨j, hj, hcase⟩ := hrest hfin
            refine ⟨j, hj, ?_⟩
            rcases hcase with h1 | ⟨h2, v2, hv2, hv2f⟩
            · exact Or.inl h1
            · exact Or.inr ⟨h2, v2, hkLookup_append_left hv2, hv2f⟩
          · obtain ⟨hk1, hk2⟩ := Prod.mk.injEq _ _ _ _ ▸ hk
            subst hk1; subst hk2
            refine ⟨hbit, ?_⟩
            rw [← hv] at l3
            intro hfin
            obtain ⟨j, hj, hb2, v2, hv2, hv2f⟩ := l3 hfin
            exact ⟨j, hj, Or.inr ⟨hb2, v2, hkLookup_append_left hv2, hv2f⟩⟩
        · intro k v h
          exact hkLookup_append_left (l2 k v h)
        · exact hkLookup_append_singleton_of_none hnone
        · intro k v h
          rcases hkLookup_append_singleton_cases h with hold | ⟨hk, -⟩
          · rcases l4 _ _ hold with h2 | h2
            · exact Or.inl h2
            · exact Or.inr (by omega)
          · right
            rw [hk]

theorem hkGood_nil (start : ℕ) : hkGood start [] := by
  intro mask i c p h
  simp [hkLookup] at h

theorem dpGo_hit {dist : DFunF} {start n : ℕ} {timeO : ℕ → Bool} {fuel mask i : ℕ}
    {st : HkSt} {v : FCost × Option ℕ}
    (h : hkLookup st.memo (mask, i) = some v) (hf : 0 < fuel) :
    dpGo dist start n timeO fuel mask i st = (v, st) := by
  cases fuel with
  | zero => omega
  | succ f => simp [dpGo, h]

theorem hkScan_inv (dist : DFunF) (start n : ℕ) (timeO : ℕ → Bool) :
    ∀ (js : List ℕ) (best : FCost × Option ℕ) (st : HkSt),
      (∀ i ∈ js, i < n) →
      hkGood start st.memo →
      (best.1 ≠ FCost.inf → ∃ e, best.2 = some e ∧
        ∃ v, hkLookup st.memo ((1 <<< n) - 1, e) = some v ∧ v.1 ≠ FCost.inf) →
      hkGood start
        (hkScan dist start n timeO ((1 <<< n) - 1) js best st).2.memo ∧
      ((hkScan dist start n timeO ((1 <<< n) - 1) js best st).1.1 ≠ FCost.inf →
        ∃ e, (hkScan dist start n timeO ((1 <<< n) - 1) js best st).1.2 = some e ∧
          ∃ v, hkLookup (hkScan dist start n timeO ((1 <<< n) - 1) js best st).2.memo
            ((1 <<< n) - 1, e) = some v ∧ v.1 ≠ FCost.inf) := by
  intro js
  induction js with
  | nil =>
    intro best st hjs hgood hbest
    exact ⟨hgood, hbest⟩
  | cons i is ih =>
    intro best st hjs hgood hbest
    by_cases hi : i = start
    · simp only [hkScan, hi, if_pos rfl]
      exact ih best st (fun x hx => hjs x (List.mem_cons_of_mem _ hx)) hgood hbest
    · have hin : i < n := hjs i (List.mem_cons_self _ _)
      have hbit : ((1 <<< n) - 1).testBit i = true := by
        rw [Nat.one_shiftLeft, Nat.testBit_two_pow_sub_one]
        simpa using hin
      obtain ⟨g1, g2, g3, g4⟩ := dpGo_inv dist start n timeO ((1 <<< n) - 1 + 1)
        ((1 <<< n) - 1) i st (by omega) hbit hgood
      have hbest2 : ∀ b2 : FCost × Option ℕ,
          b2 = (if FCost.blt (dpGo dist start n timeO ((1 <<< n) - 1 + 1)
                ((1 <<< n) - 1) i st).1.1 best.1
            then ((dpGo dist start n timeO ((1 <<< n) - 1 + 1) ((1 <<< n) - 1) i st).1.1, some i)
            else best) →
          (b2.1 ≠ FCost.inf → ∃ e, b2.2 = some e ∧
            ∃ v, hkLookup (dpGo dist start n timeO ((1 <<< n) - 1 + 1)
              ((1 <<< n) - 1) i st).2.memo ((1 <<< n) - 1, e) = some v ∧
              v.1 ≠ FCost.inf) := by
        intro b2 hb2
        by_cases hblt : FCost.blt (dpGo dist start n timeO ((1 <<< n) - 1 + 1)
            ((1 <<< n) - 1) i st).1.1 best.1 = true
        · rw [if_pos hblt] at hb2
          subst hb2
          intro hfin
          exact ⟨i, rfl, _, g3, FCost.blt_ne_inf hblt⟩
        · rw [if_neg hblt] at hb2
          subst hb2
          intro hfin
          obtain ⟨e, he, v, hv, hvf⟩ := hbest hfin
          exact ⟨e, he, v, g2 _ _ hv, hvf⟩
      simp only [hkScan, if_neg hi]
      by_cases ht : timeO (dpGo dist start n timeO ((1 <<< n) - 1 + 1)
          ((1 <<< n) - 1) i st).2.checks = true
      · simp only [ht, if_true]
        exact ⟨g1, hbest2 _ rfl⟩
      · simp only [ht, if_false]
        exact ih _ _ (fun x hx => hjs x (List.mem_cons_of_mem _ hx)) g1 (hbest2 _ rfl)

theorem hkRecon_some (dist : DFunF) (start n : ℕ) (timeO : ℕ → Bool) :
    ∀ (fuel mask i : ℕ) (acc : List ℕ) (st : HkSt),
      hkGood start st.memo → mask < fuel →
      (∃ v, hkLookup st.memo (mask, i) = some v ∧ v.1 ≠ FCost.inf) →
      (hkRecon dist start n timeO fuel mask i acc st).isSome = true := by
  intro fuel
  induction fuel with
  | zero => intro mask i acc st hgood hlt; omega
  | succ f ih =>
    intro mask i acc st hgood hlt hex
    by_cases hi : i = start
    · simp [hkRecon, hi]
    · obtain ⟨v, hv, hvf⟩ := hex
      simp only [hkRecon, if_neg hi]
      rw [dpGo_hit hv (by omega)]
      obtain ⟨hbit, hrest⟩ := hgood mask i v.1 v.2 (by rw [hv])
      have hm1 : 1 ≤ mask := by
        have := Nat.testBit_implies_ge hbit
        have h2 : 0 < 2 ^ i := Nat.pos_pow_of_pos i (by omega)
        omega
      obtain ⟨j, hj, hcase⟩ := hrest hvf
      simp only [hj]
      rcases hcase with rfl | ⟨hb2, v2, hv2, hv2f⟩
      · cases f with
        | zero =>
          have := clearBit_lt hbit
          omega
        | succ f2 => simp [hkRecon]
      · exact ih (clearBit mask i) j (j :: acc) st hgood
          (by have := clearBit_lt hbit; omega) ⟨v2, hv2, hv2f⟩

/-- C6: for every distance function (finite or infinite values), every `n`,
every start index and every outcome of the time-budget polls, `held_karp`
returns a result — the chain of cached predecessors used by the
reconstruction always exists and stays finite, so no exception is raised
even when the budget cuts the DP short; and whenever the DP scan completed
nothing (its best cost is still `inf`), the result is the identity ordering
`0..n-1` with that ordering's length. -/
theorem held_karp_never_raises_and_identity_fallback (dist : DFunF) (n start : ℕ)
    (timeO : ℕ → Bool) :
    (held_karp dist n start timeO).isSome = true ∧
    ((hkScan dist start n timeO ((1 <<< n) - 1) (List.range n) (FCost.inf, none)
        ⟨[], 0, 0⟩).1.1 = FCost.inf →
      held_karp dist n start timeO =
        some (List.range n, tour_lengthF dist (List.range n),
          (hkScan dist start n timeO ((1 <<< n) - 1) (List.range n) (FCost.inf, none)
            ⟨[], 0, 0⟩).2.calls)) := by
  obtain ⟨s1, s2⟩ := hkScan_inv dist start n timeO (List.range n) (FCost.inf, none)
    ⟨[], 0, 0⟩ (fun x hx => List.mem_range.mp hx) (hkGood_nil start)
    (by intro hc; simp at hc)
  constructor
  · rw [held_karp]
    cases hbc : (hkScan dist start n timeO ((1 <<< n) - 1) (List.range n) (FCost.inf, none)
        ⟨[], 0, 0⟩).1.1 with
    | inf =>
      cases hbe : (hkScan dist start n timeO ((1 <<< n) - 1) (List.range n)
          (FCost.inf, none) ⟨[], 0, 0⟩).1.2 with
      | none =>
        rw [show (hkScan dist start n timeO ((1 <<< n) - 1) (List.range n)
          (FCost.inf, none) ⟨[], 0, 0⟩).1 = (FCost.inf, (none : Option ℕ)) from
          Prod.ext hbc hbe]
        simp
      | some e =>
        rw [show (hkScan dist start n timeO ((1 <<< n) - 1) (List.range n)
          (FCost.inf, none) ⟨[], 0, 0⟩).1 = (FCost.inf, some e) from Prod.ext hbc hbe]
        simp
    | fin c =>
      have hfin : (hkScan dist start n timeO ((1 <<< n) - 1) (List.range n)
          (FCost.inf, none) ⟨[], 0, 0⟩).1.1 ≠ FCost.inf := by rw [hbc]; simp
      obtain ⟨e, he, v, hv, hvf⟩ := s2 hfin
      have hpair : (hkScan dist start n timeO ((1 <<< n) - 1) (List.range n)
          (FCost.inf, none) ⟨[], 0, 0⟩).1 = (FCost.fin c, some e) := Prod.ext hbc he
      rw [hpair]
      have hrec := hkRecon_some dist start n timeO ((1 <<< n) - 1 + 1) ((1 <<< n) - 1)
        e [e] (hkScan dist start n timeO ((1 <<< n) - 1) (List.range n)
          (FCost.inf, none) ⟨[], 0, 0⟩).2 s1 (by omega) ⟨v, hv, hvf⟩
      cases hrc : hkRecon dist start n timeO ((1 <<< n) - 1 + 1) ((1 <<< n) - 1) e [e]
          (hkScan dist start n timeO ((1 <<< n) - 1) (List.range n)
            (FCost.inf, none) ⟨[], 0, 0⟩).2 with
      | none => rw [hrc] at hrec; simp at hrec
      | some pr => simp only [hrc]; simp
  · intro hinf
    rw [held_karp]
    cases hbe : (hkScan dist start n timeO ((1 <<< n) - 1) (List.range n)
        (FCost.inf, none) ⟨[], 0, 0⟩).1.2 with
    | none =>
      rw [show (hkScan dist start n timeO ((1 <<< n) - 1) (List.range n)
        (FCost.inf, none) ⟨[], 0, 0⟩).1 = (FCost.inf, (none : Option ℕ)) from
        Prod.ext hinf hbe]
    | some e =>
      rw [show (hkScan dist start n timeO ((1 <<< n) - 1) (List.range n)
        (FCost.inf, none) ⟨[], 0, 0⟩).1 = (FCost.inf, some e) from Prod.ext hinf hbe]

unseal Rat.add Rat.sub Rat.mul in
/-- C6 witness: the theorem at the all-infinite distance function with
`n = 2`, `start = 0`, no timeout: the scan completes nothing and `held_karp`
returns the identity order `[0, 1]` with its (infinite) length. -/
theorem held_karp_identity_fallback_witness :
    (held_karp (fun _ _ => FCost.inf) 2 0 (fun _ => false)).isSome = true ∧
    held_karp (fun _ _ => FCost.inf) 2 0 (fun _ => false) =
      some (List.range 2, tour_lengthF (fun _ _ => FCost.inf) (List.range 2),
        (hkScan (fun _ _ => FCost.inf) 0 2 (fun _ => false) ((1 <<< 2) - 1) (List.range 2)
          (FCost.inf, none) ⟨[], 0, 0⟩).2.calls) :=
  ⟨(held_karp_never_raises_and_identity_fallback (fun _ _ => FCost.inf) 2 0 (fun _ => false)).1,
    (held_karp_never_raises_and_identity_fallback (fun _ _ => FCost.inf) 2 0
      (fun _ => false)).2 (by decide)⟩

/-! ### Correctness machinery for the shortest-path searches -/

/-- Reachability in the neighbor graph of a grid. -/
inductive Reach (g : Grid) (s : Pos) : Pos → Prop
  | refl : Reach g s s
  | step {u v : Pos} : Reach g s u → v ∈ g.neighbors u → Reach g s v

/-- `WalkCost g s v c`: some walk from `s` to `v` along neighbor edges has
total weight `c`. -/
inductive WalkCost (g : Grid) (s : Pos) : Pos → ℚ → Prop
  | refl : WalkCost g s s 0
  | step {u v : Pos} {c : ℚ} : WalkCost g s u c → v ∈ g.neighbors u →
      WalkCost g s v (c + wOf u v)

theorem reach_of_walkCost {g : Grid} {s v : Pos} {c : ℚ} (h : WalkCost g s v c) :
    Reach g s v := by
  induction h with
  | refl => exact Reach.refl
  | step _ hm ih => exact Reach.step ih hm

theorem walkCost_of_reach {g : Grid} {s v : Pos} (h : Reach g s v) :
    ∃ c, WalkCost g s v c := by
  induction h with
  | refl => exact ⟨0, WalkCost.refl⟩
  | step _ hm ih =>
    obtain ⟨c, hc⟩ := ih
    exact ⟨_, WalkCost.step hc hm⟩

theorem mem_neighbors_elim {g : Grid} {p q : Pos} (h : q ∈ g.neighbors p) :
    (∃ dl ∈ (if g.diag then steps8 else steps4), q = (p.1 + dl.1, p.2 + dl.2)) ∧
    g.in_bounds q = true ∧ g.passable q = true := by
  unfold Grid.neighbors at h
  have h1 := List.mem_filter.mp h
  have h2 := List.mem_map.mp h1.1
  obtain ⟨dl, hdl, hq⟩ := h2
  refine ⟨⟨dl, hdl, hq.symm⟩, ?_, ?_⟩
  · exact (Bool.and_eq_true _ _ ▸ h1.2).1
  · exact (Bool.and_eq_true _ _ ▸ h1.2).2

theorem steps4_sub_steps8 : ∀ dl ∈ steps4, dl ∈ steps8 := by decide

theorem steps8_ne_zero : ∀ dl ∈ steps8, dl ≠ ((0 : ℤ), (0 : ℤ)) := by decide

theorem neighbors_ne {g : Grid} {p q : Pos} (h : q ∈ g.neighbors p) : q ≠ p := by
  obtain ⟨⟨dl, hdl, hq⟩, -, -⟩ := mem_neighbors_elim h
  have hz : dl ≠ ((0 : ℤ), (0 : ℤ)) := by
    apply steps8_ne_zero
    by_cases hd : g.diag
    · rw [hd] at hdl; simpa using hdl
    · have : dl ∈ steps4 := by
        rw [Bool.not_eq_true] at hd
        rw [hd] at hdl; simpa using hdl
      exact steps4_sub_steps8 dl this
  subst hq
  intro hc
  apply hz
  have h1 : p.1 + dl.1 = p.1 := congrArg Prod.fst hc
  have h2 : p.2 + dl.2 = p.2 := congrArg Prod.snd hc
  have : dl.1 = 0 := by omega
  have : dl.2 = 0 := by omega
  exact Prod.ext (by omega) (by omega)

theorem relaxNbrs_dist_reach {g : Grid} {s u : Pos} {d : ℚ} {h : Pos → ℚ}
    (hu : Reach g s u) :
    ∀ (vs : List Pos) (dist : Pos → Option ℚ) (prev : Pos → Option Pos)
      (queue : List (ℚ × Pos)),
      (∀ v ∈ vs, v ∈ g.neighbors u) →
      (∀ p dd, dist p = some dd → Reach g s p) →
      (∀ p dd, (relaxNbrs h u d vs dist prev queue).1 p = some dd → Reach g s p) := by
  intro vs
  induction vs with
  | nil => intro dist prev queue hvs hreach; exact hreach
  | cons v vs2 ih =>
    intro dist prev queue hvs hreach
    simp only [relaxNbrs]
    by_cases him : (match dist v with
        | none => true
        | some dv => decide (d + wOf u v < dv)) = true
    · rw [if_pos him]
      apply ih _ _ _ (fun x hx => hvs x (List.mem_cons_of_mem _ hx))
      intro p dd hp
      by_cases hpv : p = v
      · subst hpv
        exact Reach.step hu (hvs _ (List.mem_cons_self _ _))
      · rw [if_neg hpv] at hp
        exact hreach p dd hp
    · rw [if_neg him]
      exact ih _ _ _ (fun x hx => hvs x (List.mem_cons_of_mem _ hx)) hreach

theorem searchLoop_dist_reach (g : Grid) (s t : Pos) (h : Pos → ℚ) :
    ∀ (fuel : ℕ) (st : SearchSt),
      (∀ p dd, st.dist p = some dd → Reach g s p) →
      (∀ p dd, (searchLoop g t h fuel st).dist p = some dd → Reach g s p) := by
  intro fuel
  induction fuel with
  | zero => intro st hreach; exact hreach
  | succ f ih =>
    intro st hreach
    rw [searchLoop]
    cases hq : st.queue with
    | nil => exact hreach
    | cons e rest =>
      obtain ⟨d, u⟩ := e
      by_cases hgoal : u = t
      · simp only [if_pos hgoal]
        exact hreach
      · simp only [if_neg hgoal]
        by_cases hstale : st.dist u ≠ some d
        · rw [if_pos hstale]
          exact ih _ hreach
        · rw [if_neg hstale]
          rw [not_not] at hstale
          apply ih
          exact relaxNbrs_dist_reach (hreach u d hstale) (g.neighbors u)
            st.dist st.prev rest (fun x hx => hx) hreach

theorem searchRun_unreachable (g : Grid) (s t : Pos) (h : Pos → ℚ)
    (hun : ¬ Reach g s t) :
    (searchRun g s t h).1 = [] ∧ (searchRun g s t h).2.1 = FCost.inf := by
  have hd := searchLoop_dist_reach g s t h (searchFuel g) (initSt s)
    (by
      intro p dd hp
      simp only [initSt] at hp
      by_cases hps : p = s
      · subst hps; exact Reach.refl
      · rw [if_neg hps] at hp; simp at hp)
  have hnone : (searchLoop g t h (searchFuel g) (initSt s)).dist t = none := by
    cases hc : (searchLoop g t h (searchFuel g) (initSt s)).dist t with
    | none => rfl
    | some c => exact absurd (hd t c hc) hun
  refine ⟨?_, ?_⟩ <;>
    · simp only [searchRun]
      rw [hnone]

/-- C5: whenever the goal is unreachable from the start in the grid's
neighbor graph, both `astar` (for every heuristic argument and both values of
`diag_allowed`) and `dijkstra` return an empty path and cost `float('inf')`. -/
theorem unreachable_empty_path_inf_cost (g : Grid) (s t : Pos)
    (hh : Option (Pos → Pos → ℚ)) (diag : Bool) (hun : ¬ Reach g s t) :
    (dijkstra g s t).1 = [] ∧ (dijkstra g s t).2.1 = FCost.inf ∧
    (astar g s t hh diag).1 = [] ∧ (astar g s t hh diag).2.1 = FCost.inf := by
  obtain ⟨h1, h2⟩ := searchRun_unreachable g s t (fun _ => 0) hun
  obtain ⟨h3, h4⟩ := searchRun_unreachable g s t
    (fun v => (hh.getD (if diag then octile else manhattan)) v t) hun
  exact ⟨h1, h2, h3, h4⟩

unseal Rat.add Rat.sub Rat.mul in
/-- C5 witness: on a 1×1 grid the cell (5,5) is unreachable from (0,0):
both searches return `([], inf)`. -/
theorem unreachable_empty_path_inf_cost_witness :
    (dijkstra (Grid.mk 1 1 ∅ false) (0, 0) (5, 5)).1 = [] ∧
    (dijkstra (Grid.mk 1 1 ∅ false) (0, 0) (5, 5)).2.1 = FCost.inf ∧
    (astar (Grid.mk 1 1 ∅ false) (0, 0) (5, 5) none true).1 = [] ∧
    (astar (Grid.mk 1 1 ∅ false) (0, 0) (5, 5) none true).2.1 = FCost.inf :=
  unreachable_empty_path_inf_cost (Grid.mk 1 1 ∅ false) (0, 0) (5, 5) none true
    (by
      intro hre
      have hnb : (Grid.mk 1 1 ∅ false).neighbors (0, 0) = [] := by decide
      have hinv : ∀ p, Reach (Grid.mk 1 1 ∅ false) ((0 : ℤ), (0 : ℤ)) p → p = (0, 0) := by
        intro p hp
        induction hp with
        | refl => rfl
        | step _ hm ih =>
          rw [ih, hnb] at hm
          cases hm
      exact absurd (hinv _ hre) (by decide))

theorem mem_steps_sub {g : Grid} {dl : Pos}
    (h : dl ∈ (if g.diag then steps8 else steps4)) : dl ∈ steps8 := by
  by_cases hd : g.diag
  · rw [if_pos hd] at h; exact h
  · rw [if_neg hd] at h; exact steps4_sub_steps8 dl h

theorem posLe_refl (a : Pos) : posLe a a = true := by
  simp [posLe]

theorem posLe_total (a b : Pos) : posLe a b = true ∨ posLe b a = true := by
  simp only [posLe, Bool.or_eq_true, Bool.and_eq_true, decide_eq_true_eq]
  omega

theorem posLe_trans {a b c : Pos} (h1 : posLe a b = true) (h2 : posLe b c = true) :
    posLe a c = true := by
  simp only [posLe, Bool.or_eq_true, Bool.and_eq_true, decide_eq_true_eq] at *
  omega

theorem entryLe_iff (h : Pos → ℚ) (e1 e2 : ℚ × Pos) :
    entryLe h e1 e2 = true ↔
      (e1.1 + h e1.2 < e2.1 + h e2.2 ∨
        (e1.1 + h e1.2 = e2.1 + h e2.2 ∧
          (e1.1 < e2.1 ∨ (e1.1 = e2.1 ∧ posLe e1.2 e2.2 = true)))) := by
  simp [entryLe, and_assoc]

theorem entryLe_refl (h : Pos → ℚ) (e : ℚ × Pos) : entryLe h e e = true := by
  rw [entryLe_iff]
  exact Or.inr ⟨rfl, Or.inr ⟨rfl, posLe_refl _⟩⟩

theorem entryLe_total (h : Pos → ℚ) (e1 e2 : ℚ × Pos) :
    entryLe h e1 e2 = true ∨ entryLe h e2 e1 = true := by
  rw [entryLe_iff, entryLe_iff]
  rcases lt_trichotomy (e1.1 + h e1.2) (e2.1 + h e2.2) with hk | hk | hk
  · exact Or.inl (Or.inl hk)
  · rcases lt_trichotomy e1.1 e2.1 with hg | hg | hg
    · exact Or.inl (Or.inr ⟨hk, Or.inl hg⟩)
    · rcases posLe_total e1.2 e2.2 with hp | hp
      · exact Or.inl (Or.inr ⟨hk, Or.inr ⟨hg, hp⟩⟩)
      · exact Or.inr (Or.inr ⟨hk.symm, Or.inr ⟨hg.symm, hp⟩⟩)
    · exact Or.inr (Or.inr ⟨hk.symm, Or.inl hg⟩)
  · exact Or.inr (Or.inl hk)

theorem entryLe_trans {h : Pos → ℚ} {e1 e2 e3 : ℚ × Pos}
    (h12 : entryLe h e1 e2 = true) (h23 : entryLe h e2 e3 = true) :
    entryLe h e1 e3 = true := by
  rw [entryLe_iff] at h12 h23 ⊢
  rcases h12 with hk1 | ⟨hk1, hg1⟩
  · rcases h23 with hk2 | ⟨hk2, -⟩
    · exact Or.inl (lt_trans hk1 hk2)
    · exact Or.inl (hk2 ▸ hk1)
  · rcases h23 with hk2 | ⟨hk2, hg2⟩
    · exact Or.inl (hk1 ▸ hk2)
    · refine Or.inr ⟨hk1.trans hk2, ?_⟩
      rcases hg1 with hg1 | ⟨hg1, hp1⟩
      · rcases hg2 with hg2 | ⟨hg2, -⟩
        · exact Or.inl (lt_trans hg1 hg2)
        · exact Or.inl (hg2 ▸ hg1)
      · rcases hg2 with hg2 | ⟨hg2, hp2⟩
        · exact Or.inl (hg1 ▸ hg2)
        · exact Or.inr ⟨hg1.trans hg2, posLe_trans hp1 hp2⟩

theorem entryLe_of_not {h : Pos → ℚ} {e1 e2 : ℚ × Pos}
    (hn : ¬ entryLe h e1 e2 = true) : entryLe h e2 e1 = true := by
  rcases entryLe_total h e1 e2 with h1 | h1
  · exact absurd h1 hn
  · exact h1

theorem insertSorted_mem (h : Pos → ℚ) (e : ℚ × Pos) :
    ∀ (l : List (ℚ × Pos)) (a : ℚ × Pos),
      a ∈ insertSorted h e l ↔ a = e ∨ a ∈ l := by
  intro l
  induction l with
  | nil => intro a; simp [insertSorted]
  | cons x xs ih =>
    intro a
    simp only [insertSorted]
    by_cases hle : entryLe h e x = true
    · rw [if_pos hle]
      simp only [List.mem_cons]
    · rw [if_neg hle]
      simp only [List.mem_cons, ih]
      tauto

theorem insertSorted_length (h : Pos → ℚ) (e : ℚ × Pos) :
    ∀ l : List (ℚ × Pos), (insertSorted h e l).length = l.length + 1 := by
  intro l
  induction l with
  | nil => rfl
  | cons x xs ih =>
    simp only [insertSorted]
    by_cases hle : entryLe h e x = true
    · rw [if_pos hle]; rfl
    · rw [if_neg hle]; simp [ih]

theorem insertSorted_pairwise (h : Pos → ℚ) (e : ℚ × Pos) :
    ∀ l : List (ℚ × Pos),
      l.Pairwise (fun a b => entryLe h a b = true) →
      (insertSorted h e l).Pairwise (fun a b => entryLe h a b = true) := by
  intro l
  induction l with
  | nil => intro _; simp [insertSorted]
  | cons x xs ih =>
    intro hl
    rw [List.pairwise_cons] at hl
    simp only [insertSorted]
    by_cases hle : entryLe h e x = true
    · rw [if_pos hle]
      refine List.Pairwise.cons ?_ (List.Pairwise.cons hl.1 hl.2)
      intro a ha
      rcases List.mem_cons.mp ha with rfl | ha
      · exact hle
      · exact entryLe_trans hle (hl.1 a ha)
    · rw [if_neg hle]
      refine List.Pairwise.cons ?_ (ih hl.2)
      intro a ha
      rcases (insertSorted_mem h e xs a).mp ha with rfl | ha
      · exact entryLe_of_not hle
      · exact hl.1 a ha

/-- The point update `dist[v] = nd` performed by a relaxation step. -/
def updD (dist : Pos → Option ℚ) (v : Pos) (nd : ℚ) : Pos → Option ℚ :=
  fun p => if p = v then some nd else dist p

/-- The point update `came_from[v] = u` performed by a relaxation step. -/
def updP (prev : Pos → Option Pos) (v u : Pos) : Pos → Option Pos :=
  fun p => if p = v then some u else prev p

theorem updD_eq (dist : Pos → Option ℚ) (v : Pos) (nd : ℚ) :
    updD dist v nd v = some nd := if_pos rfl

theorem updD_ne (dist : Pos → Option ℚ) (v : Pos) (nd : ℚ) {p : Pos}
    (hp : p ≠ v) : updD dist v nd p = dist p := if_neg hp

/-- All neighbors of `v` have been relaxed from the tentative value `c`. -/
def Relaxed (g : Grid) (dist : Pos → Option ℚ) (v : Pos) (c : ℚ) : Prop :=
  ∀ w ∈ g.neighbors v, ∃ cw, dist w = some cw ∧ cw ≤ c + wOf v w

/-- `c` is a lower bound on every walk cost from `s` to `v`. -/
def OptimalAt (g : Grid) (s v : Pos) (c : ℚ) : Prop :=
  ∀ c', WalkCost g s v c' → c ≤ c'

/-- A settled vertex: its tentative value is optimal and propagated to all
neighbors. -/
def ClosedV (g : Grid) (s : Pos) (dist : Pos → Option ℚ) (v : Pos) : Prop :=
  ∀ c, dist v = some c → Relaxed g dist v c ∧ OptimalAt g s v c

/-- Pointwise evolution of the tentative distance map: keys are never
dropped and values never increase. -/
def DistMono (d1 d2 : Pos → Option ℚ) : Prop :=
  ∀ p c, d1 p = some c → ∃ c2, d2 p = some c2 ∧ c2 ≤ c

theorem distMono_refl (d : Pos → Option ℚ) : DistMono d d :=
  fun _ c hc => ⟨c, hc, le_refl c⟩

theorem distMono_trans {d1 d2 d3 : Pos → Option ℚ}
    (h12 : DistMono d1 d2) (h23 : DistMono d2 d3) : DistMono d1 d3 := by
  intro p c hc
  obtain ⟨c2, hc2, hle2⟩ := h12 p c hc
  obtain ⟨c3, hc3, hle3⟩ := h23 p c2 hc2
  exact ⟨c3, hc3, le_trans hle3 hle2⟩

theorem closedV_mono {g : Grid} {s : Pos} {d1 d2 : Pos → Option ℚ} {v : Pos}
    (hm : DistMono d1 d2) (hv : d2 v = d1 v) (hc : ClosedV g s d1 v) :
    ClosedV g s d2 v := by
  intro c hvc
  rw [hv] at hvc
  obtain ⟨hr, ho⟩ := hc c hvc
  refine ⟨?_, ho⟩
  intro w hw
  obtain ⟨cw, hcw, hle⟩ := hr w hw
  obtain ⟨c2, hc2, hle2⟩ := hm w cw hcw
  exact ⟨c2, hc2, le_trans hle2 hle⟩

/-- Everything the relaxation loop guarantees about its output distance map
and queue, relative to its input. -/
structure RelaxOut (g : Grid) (s u : Pos) (h : Pos → ℚ) (d : ℚ) (vs : List Pos)
    (dist : Pos → Option ℚ) (queue : List (ℚ × Pos))
    (dist' : Pos → Option ℚ) (queue' : List (ℚ × Pos)) : Prop where
  dSound : ∀ p c, dist' p = some c → WalkCost g s p c
  qKey : ∀ k v, (k, v) ∈ queue' → WalkCost g s v k ∧ ∃ c, dist' v = some c ∧ c ≤ k
  qSorted : queue'.Pairwise (fun a b => entryLe h a b = true)
  mono : DistMono dist dist'
  change : ∀ p, dist' p = dist p ∨
    (p ∈ vs ∧ dist' p = some (d + wOf u p) ∧
      (∀ c, dist p = some c → d + wOf u p < c) ∧ (d + wOf u p, p) ∈ queue')
  relaxed : ∀ v ∈ vs, ∃ cv, dist' v = some cv ∧ cv ≤ d + wOf u v
  lenLe : queue'.length ≤ queue.length + vs.length
  keep : ∀ e ∈ queue, e ∈ queue'

theorem relaxNbrs_master {g : Grid} {s u : Pos} {h : Pos → ℚ} {d : ℚ}
    (hWu : WalkCost g s u d) :
    ∀ (vs : List Pos) (dist : Pos → Option ℚ) (prev : Pos → Option Pos)
      (queue : List (ℚ × Pos)),
      (∀ v ∈ vs, v ∈ g.neighbors u) →
      (∀ p c, dist p = some c → WalkCost g s p c) →
      (∀ k v, (k, v) ∈ queue → WalkCost g s v k ∧ ∃ c, dist v = some c ∧ c ≤ k) →
      queue.Pairwise (fun a b => entryLe h a b = true) →
      RelaxOut g s u h d vs dist queue
        (relaxNbrs h u d vs dist prev queue).1
        (relaxNbrs h u d vs dist prev queue).2.2 := by
  intro vs
  induction vs with
  | nil =>
    intro dist prev queue hsub hds hqk hqs
    exact { dSound := hds, qKey := hqk, qSorted := hqs, mono := distMono_refl _,
            change := fun p => Or.inl rfl, relaxed := by simp,
            lenLe := by simp [relaxNbrs], keep := fun e he => he }
  | cons v vs2 ih =>
    intro dist prev queue hsub hds hqk hqs
    have hvnb : v ∈ g.neighbors u := hsub v (List.mem_cons_self _ _)
    have hWv : WalkCost g s v (d + wOf u v) := WalkCost.step hWu hvnb
    by_cases himp : (∀ dv, dist v = some dv → d + wOf u v < dv)
    · -- the improving branch: the update and push happen
      have heq : relaxNbrs h u d (v :: vs2) dist prev queue =
          relaxNbrs h u d vs2 (updD dist v (d + wOf u v)) (updP prev v u)
            (insertSorted h (d + wOf u v, v) queue) := by
        cases hdv : dist v with
        | none => simp only [relaxNbrs, hdv]; rfl
        | some dv =>
          simp only [relaxNbrs, hdv]
          rw [if_pos (decide_eq_true (himp dv hdv))]
          rfl
      rw [heq]
      have hds1 : ∀ p c, updD dist v (d + wOf u v) p = some c → WalkCost g s p c := by
        intro p c hp
        by_cases hpv : p = v
        · subst hpv
          rw [updD_eq, Option.some.injEq] at hp
          rw [← hp]
          exact hWv
        · rw [updD_ne dist _ _ hpv] at hp
          exact hds p c hp
      have hqk1 : ∀ k w, (k, w) ∈ insertSorted h (d + wOf u v, v) queue →
          WalkCost g s w k ∧ ∃ c, updD dist v (d + wOf u v) w = some c ∧ c ≤ k := by
        intro k w hw
        rcases (insertSorted_mem h _ queue (k, w)).mp hw with hnew | hold
        · rw [Prod.mk.injEq] at hnew
          obtain ⟨rfl, rfl⟩ := hnew
          exact ⟨hWv, ⟨d + wOf u w, updD_eq _ _ _, le_refl _⟩⟩
        · obtain ⟨hwk, c, hc, hck⟩ := hqk k w hold
          refine ⟨hwk, ?_⟩
          by_cases hwv : w = v
          · subst hwv
            refine ⟨d + wOf u w, updD_eq _ _ _, ?_⟩
            exact le_trans (le_of_lt (himp c hc)) hck
          · exact ⟨c, by rw [updD_ne dist _ _ hwv]; exact hc, hck⟩
      have out := ih (updD dist v (d + wOf u v)) (updP prev v u)
        (insertSorted h (d + wOf u v, v) queue)
        (fun x hx => hsub x (List.mem_cons_of_mem _ hx))
        hds1 hqk1 (insertSorted_pairwise h _ queue hqs)
      have hmono1 : DistMono dist (updD dist v (d + wOf u v)) := by
        intro p c hp
        by_cases hpv : p = v
        · subst hpv
          exact ⟨d + wOf u p, updD_eq _ _ _, le_of_lt (himp c hp)⟩
        · exact ⟨c, by rw [updD_ne dist _ _ hpv]; exact hp, le_refl _⟩
      refine { dSound := out.dSound, qKey := out.qKey, qSorted := out.qSorted,
               mono := distMono_trans hmono1 out.mono, change := ?_,
               relaxed := ?_, lenLe := ?_, keep := ?_ }
      · intro p
        rcases out.change p with hsame | ⟨hmem, hset, himp2, hent⟩
        · by_cases hpv : p = v
          · subst hpv
            refine Or.inr ⟨List.mem_cons_self _ _, ?_, himp, ?_⟩
            · rw [hsame, updD_eq]
            · exact out.keep _ ((insertSorted_mem h _ queue _).mpr (Or.inl rfl))
          · rw [hsame, updD_ne dist _ _ hpv]
            exact Or.inl rfl
        · refine Or.inr ⟨List.mem_cons_of_mem _ hmem, hset, ?_, hent⟩
          intro c hc
          by_cases hpv : p = v
          · subst hpv
            have := himp2 (d + wOf u p) (updD_eq _ _ _)
            exact absurd this (lt_irrefl _)
          · exact himp2 c (by rw [updD_ne dist _ _ hpv]; exact hc)
      · intro w hw
        rcases List.mem_cons.mp hw with rfl | hw2
        · obtain ⟨c2, hc2, hle2⟩ := out.mono w (d + wOf u w) (updD_eq _ _ _)
          exact ⟨c2, hc2, hle2⟩
        · exact out.relaxed w hw2
      · have := out.lenLe
        rw [insertSorted_length] at this
        simp only [List.length_cons]
        omega
      · intro e he
        exact out.keep e ((insertSorted_mem h _ queue e).mpr (Or.inr he))
    · -- no improvement: the step is skipped entirely
      push_neg at himp
      obtain ⟨dv, hdv, hge⟩ := himp
      have heq : relaxNbrs h u d (v :: vs2) dist prev queue =
          relaxNbrs h u d vs2 dist prev queue := by
        simp only [relaxNbrs, hdv]
        rw [if_neg (by simpa using hge)]
      rw [heq]
      have out := ih dist prev queue
        (fun x hx => hsub x (List.mem_cons_of_mem _ hx)) hds hqk hqs
      refine { dSound := out.dSound, qKey := out.qKey, qSorted := out.qSorted,
               mono := out.mono, change := ?_, relaxed := ?_,
               lenLe := ?_, keep := out.keep }
      · intro p
        rcases out.change p with hsame | ⟨hmem, hset, himp2, hent⟩
        · exact Or.inl hsame
        · exact Or.inr ⟨List.mem_cons_of_mem _ hmem, hset, himp2, hent⟩
      · intro w hw
        rcases List.mem_cons.mp hw with rfl | hw2
        · obtain ⟨c2, hc2, hle2⟩ := out.mono w dv hdv
          exact ⟨c2, hc2, le_trans hle2 hge⟩
        · exact out.relaxed w hw2
      · have := out.lenLe
        simp only [List.length_cons]
        omega

theorem relaxNbrs_noop {u : Pos} {h : Pos → ℚ} {d : ℚ} :
    ∀ (vs : List Pos) (dist : Pos → Option ℚ) (prev : Pos → Option Pos)
      (queue : List (ℚ × Pos)),
      (∀ v ∈ vs, ∃ cv, dist v = some cv ∧ cv ≤ d + wOf u v) →
      relaxNbrs h u d vs dist prev queue = (dist, prev, queue) := by
  intro vs
  induction vs with
  | nil => intro dist prev queue _; rfl
  | cons v vs2 ih =>
    intro dist prev queue hall
    obtain ⟨cv, hcv, hle⟩ := hall v (List.mem_cons_self _ _)
    have heq : relaxNbrs h u d (v :: vs2) dist prev queue =
        relaxNbrs h u d vs2 dist prev queue := by
      simp only [relaxNbrs, hcv]
      rw [if_neg (by simpa using not_lt_of_le hle)]
    rw [heq]
    exact ih dist prev queue (fun x hx => hall x (List.mem_cons_of_mem _ hx))

/-- The loop invariant of the shared search loop. -/
structure LoopInv (g : Grid) (s : Pos) (h : Pos → ℚ) (st : SearchSt) : Prop where
  dSound : ∀ p c, st.dist p = some c → WalkCost g s p c
  qKey : ∀ k v, (k, v) ∈ st.queue → WalkCost g s v k ∧ ∃ c, st.dist v = some c ∧ c ≤ k
  qSorted : st.queue.Pairwise (fun a b => entryLe h a b = true)
  openOrClosed : ∀ v c, st.dist v = some c → (c, v) ∈ st.queue ∨ ClosedV g s st.dist v
  startLe : ∃ c0, st.dist s = some c0 ∧ c0 ≤ 0

theorem inv_init (g : Grid) (s : Pos) (h : Pos → ℚ) : LoopInv g s h (initSt s) := by
  refine { dSound := ?_, qKey := ?_, qSorted := ?_, openOrClosed := ?_, startLe := ?_ }
  · intro p c hp
    simp only [initSt] at hp
    by_cases hps : p = s
    · subst hps
      rw [if_pos rfl, Option.some.injEq] at hp
      rw [← hp]
      exact WalkCost.refl
    · rw [if_neg hps] at hp; cases hp
  · intro k v hv
    simp only [initSt, List.mem_singleton, Prod.mk.injEq] at hv
    obtain ⟨rfl, rfl⟩ := hv
    exact ⟨WalkCost.refl, ⟨0, by simp [initSt], le_refl _⟩⟩
  · simp [initSt]
  · intro v c hv
    simp only [initSt] at hv
    by_cases hvs : v = s
    · subst hvs
      rw [if_pos rfl, Option.some.injEq] at hv
      left
      simp [initSt, ← hv]
    · rw [if_neg hvs] at hv; cases hv
  · exact ⟨0, by simp [initSt], le_refl _⟩

theorem entryLe_key_le {h : Pos → ℚ} {e1 e2 : ℚ × Pos}
    (hle : entryLe h e1 e2 = true) : e1.1 + h e1.2 ≤ e2.1 + h e2.2 := by
  rw [entryLe_iff] at hle
  rcases hle with hlt | ⟨heq, -⟩
  · exact le_of_lt hlt
  · exact le_of_eq heq

theorem head_min {h : Pos → ℚ} {d : ℚ} {u : Pos} {rest : List (ℚ × Pos)}
    (hqs : ((d, u) :: rest).Pairwise (fun a b => entryLe h a b = true))
    {e : ℚ × Pos} (he : e ∈ (d, u) :: rest) : entryLe h (d, u) e = true := by
  rcases List.mem_cons.mp he with rfl | he2
  · exact entryLe_refl h _
  · exact (List.pairwise_cons.mp hqs).1 e he2

theorem walk_bound {g : Grid} {s : Pos} {h : Pos → ℚ} {st : SearchSt}
    (hcons : ∀ a b, b ∈ g.neighbors a → h a ≤ wOf a b + h b)
    (hInv : LoopInv g s h st) {d : ℚ} {u : Pos} {rest : List (ℚ × Pos)}
    (hq : st.queue = (d, u) :: rest) :
    ∀ v c', WalkCost g s v c' →
      (ClosedV g s st.dist v ∧ ∃ cv, st.dist v = some cv ∧ cv ≤ c') ∨
        d + h u ≤ c' + h v := by
  intro v c' hw
  induction hw with
  | refl =>
    obtain ⟨c0, hc0, hle0⟩ := hInv.startLe
    rcases hInv.openOrClosed s c0 hc0 with hent | hcl
    · right
      rw [hq] at hent
      have := entryLe_key_le (head_min (hq ▸ hInv.qSorted) hent)
      simp only at this
      linarith
    · exact Or.inl ⟨hcl, c0, hc0, hle0⟩
  | @step y v2 cy hw' hm ih =>
    rcases ih with ⟨hcly, cyv, hcyv, hley⟩ | hbig
    · obtain ⟨hr, -⟩ := hcly cyv hcyv
      obtain ⟨cv, hcv, hlecv⟩ := hr _ hm
      have hcvle : cv ≤ cy + wOf y v2 := le_trans hlecv (by linarith)
      rcases hInv.openOrClosed _ cv hcv with hent | hcl
      · right
        rw [hq] at hent
        have := entryLe_key_le (head_min (hq ▸ hInv.qSorted) hent)
        simp only at this
        linarith
      · exact Or.inl ⟨hcl, cv, hcv, hcvle⟩
    · right
      have := hcons _ _ hm
      linarith

theorem head_pop_min {g : Grid} {s : Pos} {h : Pos → ℚ} {st : SearchSt}
    (hcons : ∀ a b, b ∈ g.neighbors a → h a ≤ wOf a b + h b)
    (hInv : LoopInv g s h st) {d : ℚ} {u : Pos} {rest : List (ℚ × Pos)}
    (hq : st.queue = (d, u) :: rest) :
    ∃ cu, st.dist u = some cu ∧ cu ≤ d ∧ OptimalAt g s u cu := by
  obtain ⟨-, cu, hcu, hcud⟩ := hInv.qKey d u (by rw [hq]; exact List.mem_cons_self _ _)
  refine ⟨cu, hcu, hcud, ?_⟩
  intro c' hw
  rcases walk_bound hcons hInv hq u c' hw with ⟨-, cv, hcv, hle⟩ | hbig
  · rw [hcu, Option.some.injEq] at hcv
    rw [hcv]
    exact hle
  · have : d ≤ c' := by linarith
    exact le_trans hcud this

theorem closed_of_empty {g : Grid} {s : Pos} {h : Pos → ℚ} {st : SearchSt}
    (hInv : LoopInv g s h st) (hq : st.queue = []) {v : Pos} {c : ℚ}
    (hc : st.dist v = some c) : ClosedV g s st.dist v := by
  rcases hInv.openOrClosed v c hc with hent | hcl
  · rw [hq] at hent
    cases hent
  · exact hcl

theorem cover_empty_queue {g : Grid} {s : Pos} {h : Pos → ℚ} {st : SearchSt}
    (hInv : LoopInv g s h st) (hq : st.queue = []) :
    ∀ v, Reach g s v → ∃ cv, st.dist v = some cv ∧ OptimalAt g s v cv := by
  intro v hv
  induction hv with
  | refl =>
    obtain ⟨c0, hc0, -⟩ := hInv.startLe
    exact ⟨c0, hc0, (closed_of_empty hInv hq hc0 c0 hc0).2⟩
  | step hry hm ih =>
    obtain ⟨cy, hcy, -⟩ := ih
    obtain ⟨hr, -⟩ := closed_of_empty hInv hq hcy cy hcy
    obtain ⟨cv, hcv, -⟩ := hr _ hm
    exact ⟨cv, hcv, (closed_of_empty hInv hq hcv cv hcv).2⟩

theorem reach_bounds {g : Grid} {s p : Pos} (hr : Reach g s p) :
    p = s ∨ g.in_bounds p = true := by
  induction hr with
  | refl => exact Or.inl rfl
  | step _ hm _ => exact Or.inr (mem_neighbors_elim hm).2.1

theorem neighbors_length_le (g : Grid) (p : Pos) : (g.neighbors p).length ≤ 8 := by
  unfold Grid.neighbors
  refine le_trans (List.length_filter_le _ _) ?_
  rw [List.length_map]
  by_cases hd : g.diag
  · rw [if_pos hd]; decide
  · rw [if_neg hd]; decide

/-- The finitely many in-bounds cells of a grid. -/
def inbFin (g : Grid) : Finset Pos :=
  (Finset.range g.width.toNat ×ˢ Finset.range g.height.toNat).image
    (fun q => ((q.1 : ℤ), (q.2 : ℤ)))

theorem inbFin_card (g : Grid) : (inbFin g).card ≤ g.width.toNat * g.height.toNat := by
  refine le_trans Finset.card_image_le ?_
  rw [Finset.card_product, Finset.card_range, Finset.card_range]

theorem mem_inbFin {g : Grid} {p : Pos} (hb : g.in_bounds p = true) : p ∈ inbFin g := by
  simp only [Grid.in_bounds, Bool.and_eq_true, decide_eq_true_eq] at hb
  obtain ⟨⟨⟨h1, h2⟩, h3⟩, h4⟩ := hb
  simp only [inbFin, Finset.mem_image, Finset.mem_product, Finset.mem_range]
  refine ⟨(p.1.toNat, p.2.toNat), ⟨by omega, by omega⟩, ?_⟩
  refine Prod.ext ?_ ?_
  · simp only; omega
  · simp only; omega

/-- A vertex whose tentative value exists, is optimal, and has been pushed
to all neighbors: the event counted by the termination measure. -/
def Settled (g : Grid) (s : Pos) (dist : Pos → Option ℚ) (v : Pos) : Prop :=
  ∃ c, dist v = some c ∧ Relaxed g dist v c ∧ OptimalAt g s v c

theorem closedV_of_settled {g : Grid} {s : Pos} {dist : Pos → Option ℚ} {v : Pos}
    (hs : Settled g s dist v) : ClosedV g s dist v := by
  obtain ⟨c, hc, hr, ho⟩ := hs
  intro c2 hc2
  rw [hc, Option.some.injEq] at hc2
  rw [← hc2]
  exact ⟨hr, ho⟩

theorem settled_mono {g : Grid} {s : Pos} {d1 d2 : Pos → Option ℚ} {v : Pos}
    (hm : DistMono d1 d2) (hv : d2 v = d1 v) (hs : Settled g s d1 v) :
    Settled g s d2 v := by
  obtain ⟨c, hc, hr, ho⟩ := hs
  refine ⟨c, by rw [hv]; exact hc, ?_, ho⟩
  intro w hw
  obtain ⟨cw, hcw, hle⟩ := hr w hw
  obtain ⟨c2, hc2, hle2⟩ := hm w cw hcw
  exact ⟨c2, hc2, le_trans hle2 hle⟩

theorem searchLoop_post {g : Grid} {s t : Pos} {h : Pos → ℚ}
    (hcons : ∀ a b, b ∈ g.neighbors a → h a ≤ wOf a b + h b)
    (hre : Reach g s t) :
    ∀ (fuel n : ℕ) (st : SearchSt), LoopInv g s h st →
      (∃ F : Finset Pos,
        (∀ v, (v = s ∨ g.in_bounds v = true) → ¬ Settled g s st.dist v → v ∈ F) ∧
        9 * F.card + st.queue.length ≤ n) →
      n < fuel →
      (∀ p c, (searchLoop g t h fuel st).dist p = some c → WalkCost g s p c) ∧
      (∃ ct, (searchLoop g t h fuel st).dist t = some ct ∧ OptimalAt g s t ct) := by
  intro fuel
  induction fuel with
  | zero => intro n st _ _ hn; omega
  | succ f ih =>
    intro n st hInv hF hn
    obtain ⟨F, hFmem, hFcard⟩ := hF
    rw [searchLoop]
    cases hq : st.queue with
    | nil =>
      refine ⟨hInv.dSound, ?_⟩
      exact cover_empty_queue hInv hq t hre
    | cons e rest =>
      obtain ⟨d, u⟩ := e
      by_cases hgoal : u = t
      · simp only [if_pos hgoal]
        subst hgoal
        obtain ⟨cu, hcu, -, hopt⟩ := head_pop_min hcons hInv hq
        exact ⟨hInv.dSound, ⟨cu, hcu, hopt⟩⟩
      · simp only [if_neg hgoal]
        by_cases hstale : st.dist u ≠ some d
        · rw [if_pos hstale]
          have hInv2 : LoopInv g s h { st with queue := rest, exp := st.exp + 1 } := by
            refine { dSound := hInv.dSound, qKey := ?_, qSorted := ?_,
                     openOrClosed := ?_, startLe := hInv.startLe }
            · intro k v hv
              exact hInv.qKey k v (by rw [hq]; exact List.mem_cons_of_mem _ hv)
            · exact (List.pairwise_cons.mp (hq ▸ hInv.qSorted)).2
            · intro v c hc
              rcases hInv.openOrClosed v c hc with hent | hcl
              · rw [hq] at hent
                rcases List.mem_cons.mp hent with heq | hent2
                · rw [Prod.mk.injEq] at heq
                  obtain ⟨rfl, rfl⟩ := heq
                  exact absurd hc hstale
                · exact Or.inl hent2
              · exact Or.inr hcl
          refine ih (n - 1) _ hInv2 ⟨F, hFmem, ?_⟩ ?_
          · have : st.queue.length = rest.length + 1 := by rw [hq]; rfl
            simp only
            omega
          · have hlen : st.queue.length = rest.length + 1 := by rw [hq]; rfl
            omega
        · rw [if_neg hstale]
          rw [not_not] at hstale
          have hWu : WalkCost g s u d := hInv.dSound u d hstale
          have hqk2 : ∀ k v, (k, v) ∈ rest →
              WalkCost g s v k ∧ ∃ c, st.dist v = some c ∧ c ≤ k := by
            intro k v hv
            exact hInv.qKey k v (by rw [hq]; exact List.mem_cons_of_mem _ hv)
          have hqs2 := (List.pairwise_cons.mp (hq ▸ hInv.qSorted)).2
          have hlen : st.queue.length = rest.length + 1 := by rw [hq]; rfl
          by_cases hsettled : Settled g s st.dist u
          · -- duplicate pop of an already settled vertex: relaxation is a no-op
            obtain ⟨cu0, hcu0, hrel0, hopt0⟩ := hsettled
            have hcud : cu0 = d := by
              rw [hstale, Option.some.injEq] at hcu0
              exact hcu0.symm
            have hnoop : relaxNbrs h u d (g.neighbors u) st.dist st.prev rest =
                (st.dist, st.prev, rest) := by
              apply relaxNbrs_noop
              intro v hv
              obtain ⟨cv, hcv, hle⟩ := hrel0 v hv
              exact ⟨cv, hcv, by rw [← hcud]; exact hle⟩
            rw [hnoop]
            have hInv2 : LoopInv g s h
                (⟨st.dist, st.prev, rest, st.exp + 1⟩ : SearchSt) := by
              refine { dSound := hInv.dSound, qKey := hqk2, qSorted := hqs2,
                       openOrClosed := ?_, startLe := hInv.startLe }
              intro v c hc
              rcases hInv.openOrClosed v c hc with hent | hcl
              · rw [hq] at hent
                rcases List.mem_cons.mp hent with heq | hent2
                · rw [Prod.mk.injEq] at heq
                  obtain ⟨rfl, rfl⟩ := heq
                  exact Or.inr (closedV_of_settled ⟨cu0, hcu0, hrel0, hopt0⟩)
                · exact Or.inl hent2
              · exact Or.inr hcl
            exact ih (n - 1) _ hInv2 ⟨F, hFmem, by simp only; omega⟩ (by omega)
          · -- a genuine settling pop
            have out := relaxNbrs_master hWu (g.neighbors u) st.dist st.prev rest
              (fun v hv => hv) hInv.dSound hqk2 hqs2
            obtain ⟨cu, hcu, hcud, hopt⟩ := head_pop_min hcons hInv hq
            have hcueq : cu = d := by
              rw [hstale, Option.some.injEq] at hcu
              exact hcu.symm
            have hchu : (relaxNbrs h u d (g.neighbors u) st.dist st.prev rest).1 u =
                st.dist u := by
              rcases out.change u with hsame | ⟨hmem, -, -, -⟩
              · exact hsame
              · exact absurd rfl (neighbors_ne hmem)
            have hsetu : Settled g s
                (relaxNbrs h u d (g.neighbors u) st.dist st.prev rest).1 u := by
              refine ⟨d, by rw [hchu]; exact hstale, out.relaxed, ?_⟩
              rw [← hcueq]
              exact hopt
            have hInv2 : LoopInv g s h
                (⟨(relaxNbrs h u d (g.neighbors u) st.dist st.prev rest).1,
                  (relaxNbrs h u d (g.neighbors u) st.dist st.prev rest).2.1,
                  (relaxNbrs h u d (g.neighbors u) st.dist st.prev rest).2.2,
                  st.exp + 1⟩ : SearchSt) := by
              refine { dSound := out.dSound, qKey := out.qKey, qSorted := out.qSorted,
                       openOrClosed := ?_, startLe := ?_ }
              · intro v c hc
                simp only at hc
                rcases out.change v with hsame | ⟨-, hset, -, hent⟩
                · rw [hsame] at hc
                  rcases hInv.openOrClosed v c hc with hent0 | hcl0
                  · rw [hq] at hent0
                    rcases List.mem_cons.mp hent0 with heq | hent2
                    · rw [Prod.mk.injEq] at heq
                      obtain ⟨rfl, rfl⟩ := heq
                      exact Or.inr (closedV_of_settled hsetu)
                    · exact Or.inl (out.keep _ hent2)
                  · exact Or.inr (closedV_mono out.mono hsame hcl0)
                · rw [hset, Option.some.injEq] at hc
                  rw [hc] at hent
                  exact Or.inl hent
              · obtain ⟨c0, hc0, hle0⟩ := hInv.startLe
                rcases out.change s with hsame | ⟨-, hset, himp, -⟩
                · exact ⟨c0, by simp only; rw [hsame]; exact hc0, hle0⟩
                · exact ⟨_, hset, le_trans (le_of_lt (himp c0 hc0)) hle0⟩
            have huF : u ∈ F := by
              apply hFmem u _ hsettled
              rcases reach_bounds (reach_of_walkCost hWu) with hus | hub
              · exact Or.inl hus
              · exact Or.inr hub
            refine ih (n - 1) _ hInv2 ⟨F.erase u, ?_, ?_⟩ ?_
            · intro v hv hns
              rw [Finset.mem_erase]
              constructor
              · intro hvu
                rw [hvu] at hns
                exact hns hsetu
              · apply hFmem v hv
                intro hsv
                apply hns
                have hvne : (relaxNbrs h u d (g.neighbors u) st.dist st.prev rest).1 v =
                    st.dist v := by
                  rcases out.change v with hsame | ⟨hmem, -, himp, -⟩
                  · exact hsame
                  · obtain ⟨cv, hcv, -, hov⟩ := hsv
                    have hwv : WalkCost g s v (d + wOf u v) := WalkCost.step hWu hmem
                    exact absurd (himp cv hcv) (not_lt_of_le (hov _ hwv))
                exact settled_mono out.mono hvne hsv
            · have hq8 : (relaxNbrs h u d (g.neighbors u) st.dist st.prev rest).2.2.length ≤
                  rest.length + 8 :=
                le_trans out.lenLe (by have := neighbors_length_le g u; omega)
              have hce : (F.erase u).card = F.card - 1 := Finset.card_erase_of_mem huF
              have hcp : 1 ≤ F.card := Finset.card_pos.mpr ⟨u, huF⟩
              simp only
              omega
            · omega

theorem searchRun_opt (g : Grid) (s t : Pos) (h : Pos → ℚ)
    (hcons : ∀ a b, b ∈ g.neighbors a → h a ≤ wOf a b + h b)
    (hre : Reach g s t) :
    ∃ c, (searchRun g s t h).2.1 = FCost.fin c ∧ WalkCost g s t c ∧
      OptimalAt g s t c := by
  have hF1 : ∀ v, (v = s ∨ g.in_bounds v = true) →
      ¬ Settled g s (initSt s).dist v → v ∈ insert s (inbFin g) := by
    intro v hv _
    rcases hv with rfl | hb
    · exact Finset.mem_insert_self _ _
    · exact Finset.mem_insert_of_mem (mem_inbFin hb)
  have hF2 : 9 * (insert s (inbFin g)).card + (initSt s).queue.length ≤
      9 * (g.width.toNat * g.height.toNat) + 10 := by
    have h1 : (insert s (inbFin g)).card ≤ (inbFin g).card + 1 :=
      Finset.card_insert_le _ _
    have h2 := inbFin_card g
    have h3 : (initSt s).queue.length = 1 := rfl
    omega
  have hfuel : 9 * (g.width.toNat * g.height.toNat) + 10 < searchFuel g := by
    unfold searchFuel
    omega
  obtain ⟨hds, ct, hct, hopt⟩ := searchLoop_post hcons hre (searchFuel g)
    (9 * (g.width.toNat * g.height.toNat) + 10) (initSt s) (inv_init g s h)
    ⟨insert s (inbFin g), hF1, hF2⟩ hfuel
  refine ⟨ct, ?_, hds t ct hct, hopt⟩
  simp only [searchRun]
  rw [hct]

theorem sqrt2lit_eq : sqrt2lit = 7071 / 5000 := by
  unfold sqrt2lit
  rw [Rat.mkRat_eq_div]
  norm_num

theorem wOf_ge_one (u v : Pos) : 1 ≤ wOf u v := by
  unfold wOf
  split_ifs
  · exact le_refl 1
  · rw [sqrt2lit_eq]; norm_num

theorem octF_axis (q A B B' : ℚ) (hs1 : 1 ≤ q) (hs2 : q ≤ 2) (hB : B ≤ B' + 1) :
    A + B + (q - 2) * min A B ≤ 1 + (A + B' + (q - 2) * min A B') := by
  rcases le_total A B with hab | hab
  · rw [min_eq_left hab]
    rcases le_total A B' with hab' | hab'
    · rw [min_eq_left hab']
      linarith
    · rw [min_eq_right hab']
      nlinarith [mul_nonneg (by linarith : (0:ℚ) ≤ 2 - q) (by linarith : (0:ℚ) ≤ A - B')]
  · rw [min_eq_right hab]
    rcases le_total A B' with hab' | hab'
    · rw [min_eq_left hab']
      nlinarith [mul_le_mul_of_nonneg_right (show (2:ℚ) - q ≤ 1 by linarith)
        (show (0:ℚ) ≤ A - B by linarith)]
    · rw [min_eq_right hab']
      nlinarith [mul_le_mul_of_nonneg_left (show B - B' ≤ 1 by linarith)
        (show (0:ℚ) ≤ q - 1 by linarith)]

theorem octF_diag (q A B A' B' : ℚ) (hs1 : 1 ≤ q) (hs2 : q ≤ 2)
    (hA : A ≤ A' + 1) (hB : B ≤ B' + 1) :
    A + B + (q - 2) * min A B ≤ q + (A' + B' + (q - 2) * min A' B') := by
  rcases le_total A B with hab | hab
  · rw [min_eq_left hab]
    rcases le_total A' B' with hab' | hab'
    · rw [min_eq_left hab']
      nlinarith [mul_le_mul_of_nonneg_left (show A - A' ≤ 1 by linarith)
        (show (0:ℚ) ≤ q - 1 by linarith)]
    · rw [min_eq_right hab']
      nlinarith [mul_le_mul_of_nonneg_left (show A - B' ≤ 1 by linarith)
        (show (0:ℚ) ≤ q - 1 by linarith)]
  · rw [min_eq_right hab]
    rcases le_total A' B' with hab' | hab'
    · rw [min_eq_left hab']
      nlinarith [mul_le_mul_of_nonneg_left (show B - A' ≤ 1 by linarith)
        (show (0:ℚ) ≤ q - 1 by linarith)]
    · rw [min_eq_right hab']
      nlinarith [mul_le_mul_of_nonneg_left (show B - B' ≤ 1 by linarith)
        (show (0:ℚ) ≤ q - 1 by linarith)]

theorem octile_eq (a b : Pos) : octile a b =
    ((iabs (a.1 - b.1) : ℤ) : ℚ) + ((iabs (a.2 - b.2) : ℤ) : ℚ) +
      (sqrt2lit - 2) *
        min ((iabs (a.1 - b.1) : ℤ) : ℚ) ((iabs (a.2 - b.2) : ℤ) : ℚ) := by
  unfold octile
  rw [min_def]

theorem octile_consistent {g : Grid} {u v : Pos} (hm : v ∈ g.neighbors u)
    (t : Pos) : octile u t ≤ wOf u v + octile v t := by
  obtain ⟨⟨dl, hdl, hv⟩, -, -⟩ := mem_neighbors_elim hm
  have hdl8 : dl ∈ steps8 := mem_steps_sub hdl
  have hd1 : (-1 ≤ dl.1 ∧ dl.1 ≤ 1) ∧ (-1 ≤ dl.2 ∧ dl.2 ≤ 1) := by
    simp only [steps8, steps4, List.mem_append, List.mem_cons,
      List.mem_singleton, List.not_mem_nil, or_false] at hdl8
    rcases hdl8 with (rfl|rfl|rfl|rfl)|(rfl|rfl|rfl|rfl) <;> norm_num
  have hv1 : v.1 = u.1 + dl.1 := by rw [hv]
  have hv2 : v.2 = u.2 + dl.2 := by rw [hv]
  have hs1 : (1 : ℚ) ≤ sqrt2lit := by rw [sqrt2lit_eq]; norm_num
  have hs2 : sqrt2lit ≤ 2 := by rw [sqrt2lit_eq]; norm_num
  have haxz : iabs (u.1 - t.1) ≤ iabs (v.1 - t.1) + 1 := by
    rw [hv1]
    simp only [iabs]
    split_ifs <;> omega
  have hayz : iabs (u.2 - t.2) ≤ iabs (v.2 - t.2) + 1 := by
    rw [hv2]
    simp only [iabs]
    split_ifs <;> omega
  have hax : ((iabs (u.1 - t.1) : ℤ) : ℚ) ≤ ((iabs (v.1 - t.1) : ℤ) : ℚ) + 1 := by
    exact_mod_cast haxz
  have hay : ((iabs (u.2 - t.2) : ℤ) : ℚ) ≤ ((iabs (v.2 - t.2) : ℤ) : ℚ) + 1 := by
    exact_mod_cast hayz
  rw [octile_eq, octile_eq]
  unfold wOf
  by_cases haxis : v.1 = u.1 ∨ v.2 = u.2
  · rw [if_pos haxis]
    rcases haxis with hx | hy
    · have hAeq : iabs (u.1 - t.1) = iabs (v.1 - t.1) := by rw [hx]
      rw [← hAeq]
      exact octF_axis sqrt2lit _ _ _ hs1 hs2 hay
    · have hBeq : iabs (u.2 - t.2) = iabs (v.2 - t.2) := by rw [hy]
      rw [← hBeq]
      have hres := octF_axis sqrt2lit ((iabs (u.2 - t.2) : ℤ) : ℚ)
        ((iabs (u.1 - t.1) : ℤ) : ℚ) ((iabs (v.1 - t.1) : ℤ) : ℚ)
        hs1 hs2 hax
      rw [min_comm ((iabs (u.2 - t.2) : ℤ) : ℚ) ((iabs (u.1 - t.1) : ℤ) : ℚ),
        min_comm ((iabs (u.2 - t.2) : ℤ) : ℚ) ((iabs (v.1 - t.1) : ℤ) : ℚ)] at hres
      linarith
  · rw [if_neg haxis]
    exact octF_diag sqrt2lit _ _ _ _ hs1 hs2 hax hay

/-- C2: for every grid and every pair `(a, b)` with `b` reachable from `a`,
the cost returned by `astar(grid, a, b)` (default octile heuristic,
`diag_allowed=True`) equals the cost returned by `dijkstra(grid, a, b)`:
both are the minimum walk cost, because the octile heuristic is consistent
for the 1 / 1.4142 edge weights and the zero heuristic trivially so. -/
theorem astar_cost_eq_dijkstra_cost (g : Grid) (a b : Pos) (hre : Reach g a b) :
    (astar g a b none true).2.1 = (dijkstra g a b).2.1 := by
  have hcons0 : ∀ x y, y ∈ g.neighbors x →
      (fun _ : Pos => (0 : ℚ)) x ≤ wOf x y + (fun _ : Pos => (0 : ℚ)) y := by
    intro x y _
    show (0 : ℚ) ≤ wOf x y + 0
    have := wOf_ge_one x y
    linarith
  have hconso : ∀ x y, y ∈ g.neighbors x →
      (fun v : Pos => octile v b) x ≤ wOf x y + (fun v : Pos => octile v b) y := by
    intro x y hxy
    exact octile_consistent hxy b
  obtain ⟨c1, he1, hw1, ho1⟩ := searchRun_opt g a b (fun _ => 0) hcons0 hre
  obtain ⟨c2, he2, hw2, ho2⟩ := searchRun_opt g a b (fun v => octile v b) hconso hre
  have hc : c2 = c1 := le_antisymm (ho2 c1 hw1) (ho1 c2 hw2)
  show (searchRun g a b (fun v => octile v b)).2.1 = (searchRun g a b (fun _ => 0)).2.1
  rw [he1, he2, hc]

/-- C2 witness: on an obstacle-free 2×1 grid the cell `(1,0)` is reachable
from `(0,0)` and both searches report the same cost. -/
theorem astar_cost_eq_dijkstra_cost_witness :
    (astar (Grid.mk 2 1 ∅ false) (0, 0) (1, 0) none true).2.1 =
      (dijkstra (Grid.mk 2 1 ∅ false) (0, 0) (1, 0)).2.1 :=
  astar_cost_eq_dijkstra_cost (Grid.mk 2 1 ∅ false) (0, 0) (1, 0)
    (Reach.step Reach.refl (by decide))
